import Mathlib

/-!
Verification of the churn aggregation engine (`src/main.rs` of churn-rs).

The program counts, for every file path in a git repository's history, the
number of distinct content versions of that path.  The core is:

* `get_mut_or_create_with` — an "insert if absent, else fetch" helper on a
  string-keyed map (in the source it uses an unsafe fast path);
* `DirData` — a tree of per-directory accumulation records with fields
  `hashes` (tree oids seen at this directory), `files` (per file name, the
  set of blob oids seen) and `dirs` (child records);
* `DirData::update_for_tree` — folds one directory snapshot into a record,
  recursing into a subdirectory only the first time its tree hash is seen
  at that path;
* `DirData::get_all_files` — flattens the tree into (path, count) rows;
* `run` — iterates over commits, folds each commit's root tree, then sorts
  and prints the rows.

The embedding models Rust sets/maps as lists with set-style insertion
(HashSet/HashMap have no observable order; insertion order is recorded
here and quotiented away in the order-independence theorems).  The object
store (`git2::Repository`) is a function from oids to resolution results.
Rust's unbounded recursion is modelled by an explicit fuel parameter;
exhausting the fuel yields a distinguished outcome that no real run of the
terminating Rust program exhibits, and theorems assume sufficient fuel via
their success hypotheses.
-/

namespace Churn

/-- A git object id (`git2::Oid`): an opaque content hash. -/
abbrev Oid := Nat

/-- A `git2::Error` as surfaced by object resolution. -/
abbrev GitErr := String

/-- The kind tag of one tree entry (`git2::ObjectType` as matched by the
source: `Tree`, `Blob`, and a catch-all for every other kind). -/
inductive EKind where
  | tree
  | blob
  | other
deriving DecidableEq, Repr

/-- One entry of a directory snapshot: `(name, oid, kind)`. -/
structure Entry where
  name : String
  oid : Oid
  kind : EKind
deriving DecidableEq, Repr

/-- The result of resolving an oid: either a directory snapshot (a git
tree, given by its entry list) or some other object shape. -/
inductive Obj where
  | tree (entries : List Entry)
  | nonTree
deriving DecidableEq, Repr

/-- The object store (`git2::Repository` restricted to object lookup):
a fixed function from oids to resolution results.  Being a function, it
satisfies the content-addressing invariant by construction: the same oid
always resolves to the same content. -/
abbrev Repo := Oid → Except GitErr Obj

/-- How a fold can end abnormally.  `git` is an error propagated through
`try!`; `panicked` is the `as_tree().unwrap()` panic on a directory entry
whose object is not a tree; `fuelOut` is the model's recursion bound. -/
inductive Failure where
  | git (e : GitErr)
  | panicked
  | fuelOut
deriving DecidableEq, Repr

/-- The accumulation record for one directory path (struct `DirData`).
`hashes` is the set of tree oids ever folded at this directory, `files`
maps each file name to the set of blob oids seen for it, and `dirs` maps
each subdirectory name to its own record. -/
inductive DirData where
  | mk (hashes : List Oid) (files : List (String × List Oid))
      (dirs : List (String × DirData))

/-- Field accessor for `DirData.hashes`. -/
def DirData.hashes : DirData → List Oid
  | .mk h _ _ => h

/-- Field accessor for `DirData.files`. -/
def DirData.files : DirData → List (String × List Oid)
  | .mk _ f _ => f

/-- Field accessor for `DirData.dirs`. -/
def DirData.dirs : DirData → List (String × DirData)
  | .mk _ _ d => d

/-- `DirData::new()`: the empty record. -/
def DirData.new : DirData := .mk [] [] []

theorem DirData.eta (d : DirData) : DirData.mk d.hashes d.files d.dirs = d := by
  cases d
  rfl

/-- First-match lookup in a string-keyed association list (models
`HashMap::get_mut`). -/
def lookupA {α : Type} : List (String × α) → String → Option α
  | [], _ => none
  | (k, v) :: t, key => if k = key then some v else lookupA t key

/-- Replace the first binding of `key` (models in-place mutation through a
`&mut` reference), or append a fresh binding if none exists. -/
def setA {α : Type} : List (String × α) → String → α → List (String × α)
  | [], key, v => [(key, v)]
  | (k, w) :: t, key, v => if k = key then (k, v) :: t else (k, w) :: setA t key v

/-- `HashSet::insert`: returns the updated set and whether the value was
newly inserted. -/
def setInsert (s : List Oid) (x : Oid) : List Oid × Bool :=
  if x ∈ s then (s, false) else (s ++ [x], true)

/-- The semantics of `map.entry(key.to_string()).or_insert_with(f)`: the
"insert if absent, else fetch" operation of the standard map API.  Returns
the fetched-or-inserted value together with the updated map. -/
def entry_or_insert_with {α : Type} (map : List (String × α)) (key : String)
    (f : Unit → α) : α × List (String × α) :=
  match lookupA map key with
  | some v => (v, map)
  | none => (f (), map ++ [(key, f ())])

/-- `get_mut_or_create_with` from the source: first an (unsafe, in Rust)
fast-path `get_mut` that returns the existing value without copying the
key, then a fall-through to the `entry(..).or_insert_with(f)` API. -/
def get_mut_or_create_with {α : Type} (map : List (String × α)) (key : String)
    (f : Unit → α) : α × List (String × α) :=
  match lookupA map key with
  | some v => (v, map)
  | none => entry_or_insert_with map key f

/-- `join(base, name)` from the source: path concatenation with `/`,
except that an empty base is dropped. -/
def join (base name : String) : String :=
  match base with
  | "" => name
  | _ => base ++ "/" ++ name

/-- The `Blob` arm of `update_for_tree`: record one observed blob oid for
file `n` in `d`'s own `files` table. -/
def recordFile (d : DirData) (n : String) (o : Oid) : DirData :=
  let gc := get_mut_or_create_with d.files n (fun _ => ([] : List Oid))
  DirData.mk d.hashes (setA gc.2 n (setInsert gc.1 o).1) d.dirs

/-- Result of folding entries into a record: the (partially) mutated
state, the oids the fold resolved through the object store
(`entry.to_object` calls, for the dedup short-circuit property), and the
abnormal outcome, if any.  On an abnormal outcome the state keeps every
mutation made before the abort, as the in-place Rust code does. -/
structure FoldRes where
  st : DirData
  calls : List Oid
  err : Option Failure

/-- The entry loop of `DirData::update_for_tree`, with the recursive
descent into a subdirectory snapshot abstracted as `recur`.  For a `Tree`
entry: get or create the child record, insert the entry's oid into the
child's `hashes`; only if the oid is new, resolve it (a panic if the
object is not a tree, mirroring `as_tree().unwrap()`) and recurse.  For a
`Blob` entry: record the oid in `files` unconditionally.  Other kinds are
ignored. -/
def foldEntries (repo : Repo) (recur : List Entry → DirData → FoldRes) :
    List Entry → DirData → FoldRes
  | [], d => ⟨d, [], none⟩
  | e :: es, d =>
    match e.kind with
    | .tree =>
      let gc := get_mut_or_create_with d.dirs e.name (fun _ => DirData.new)
      let ins := setInsert gc.1.hashes e.oid
      let child1 := DirData.mk ins.1 gc.1.files gc.1.dirs
      if ins.2 then
        match repo e.oid with
        | .error g =>
          ⟨DirData.mk d.hashes d.files (setA gc.2 e.name child1), [e.oid],
            some (.git g)⟩
        | .ok .nonTree =>
          ⟨DirData.mk d.hashes d.files (setA gc.2 e.name child1), [e.oid],
            some .panicked⟩
        | .ok (.tree subEs) =>
          let r := recur subEs child1
          let d2 := DirData.mk d.hashes d.files (setA gc.2 e.name r.st)
          match r.err with
          | some f => ⟨d2, e.oid :: r.calls, some f⟩
          | none =>
            let rest := foldEntries repo recur es d2
            ⟨rest.st, e.oid :: (r.calls ++ rest.calls), rest.err⟩
      else
        foldEntries repo recur es (DirData.mk d.hashes d.files (setA gc.2 e.name child1))
    | .blob => foldEntries repo recur es (recordFile d e.name e.oid)
    | .other => foldEntries repo recur es d

/-- `DirData::update_for_tree`, with an explicit recursion-depth budget
(the Rust recursion is unbounded; git trees are acyclic so every real run
has a sufficient finite depth). -/
def update_for_tree (repo : Repo) : Nat → List Entry → DirData → FoldRes
  | 0, _, d => ⟨d, [], some .fuelOut⟩
  | fuel + 1, es, d => foldEntries repo (update_for_tree repo fuel) es d

/-- The commit loop of `run`: fold each commit's root tree into the root
record unconditionally, aborting at the first failure while keeping the
cache state accumulated so far. -/
def run_fold (repo : Repo) (fuel : Nat) : List (List Entry) → DirData → FoldRes
  | [], d => ⟨d, [], none⟩
  | t :: ts, d =>
    let r := update_for_tree repo fuel t d
    match r.err with
    | some f => ⟨r.st, r.calls, some f⟩
    | none =>
      let rest := run_fold repo fuel ts r.st
      ⟨rest.st, r.calls ++ rest.calls, rest.err⟩

mutual

/-- `DirData::get_all_files`: one `(joined path, number of recorded blob
oids)` row per file name of this record, then the rows of every
subdirectory with the extended path prefix.  Directories produce no rows
of their own. -/
def get_all_files : DirData → String → List (String × Nat)
  | .mk _ fs ds, path =>
    fs.map (fun p => (join path p.1, p.2.length)) ++ get_all_files_list ds path

/-- The subdirectory loop of `get_all_files`. -/
def get_all_files_list : List (String × DirData) → String → List (String × Nat)
  | [], _ => []
  | (n, sub) :: rest, path =>
    get_all_files sub (join path n) ++ get_all_files_list rest path

end

mutual

/-- The number of file entries in a record, files of subdirectories
included (the number of rows `get_all_files` should emit). -/
def numFiles : DirData → Nat
  | .mk _ fs ds => fs.length + numFilesList ds

/-- The subdirectory loop of `numFiles`. -/
def numFilesList : List (String × DirData) → Nat
  | [] => 0
  | (_, sub) :: rest => numFiles sub + numFilesList rest

end

/-- Lexicographic order on report rows, as `Vec<(String, usize)>::sort`
compares tuples. -/
def rowLE (a b : String × Nat) : Prop :=
  a.1 < b.1 ∨ (a.1 = b.1 ∧ a.2 ≤ b.2)

instance : DecidableRel rowLE := fun a b => by
  unfold rowLE; infer_instance

/-- `all_files.sort()` from `run`. -/
def sortRows (l : List (String × Nat)) : List (String × Nat) :=
  List.insertionSort rowLE l

/-- The flattened, sorted report `run` prints. -/
def report (d : DirData) : List (String × Nat) :=
  sortRows (get_all_files d "")

/-- The record stored for path `q` below `d`, if any. -/
def nodeAt : DirData → List String → Option DirData
  | d, [] => some d
  | d, n :: q =>
    match lookupA d.dirs n with
    | some c => nodeAt c q
    | none => none

/-- The set of blob oids recorded for file `n` at path `q` (empty when the
path or the file is unknown). -/
def filesAt (d : DirData) (q : List String) (n : String) : List Oid :=
  match nodeAt d q with
  | some c => (lookupA c.files n).getD []
  | none => []

/-- The set of tree oids recorded at path `q` (empty when the path is
unknown). -/
def hashesAt (d : DirData) (q : List String) : List Oid :=
  match nodeAt d q with
  | some c => c.hashes
  | none => []

/-- The child record of `d` named `n`, or a fresh one (what
`DirData::subdir` hands to its caller). -/
def childOf (d : DirData) (n : String) : DirData :=
  (lookupA d.dirs n).getD DirData.new

/-- The blob-oid set of file `n` at `d` itself. -/
def fileOf (d : DirData) (n : String) : List Oid :=
  (lookupA d.files n).getD []

/-- Writing child record `c` under name `n`: the normal form of the
write-back performed by the `Tree` arm of the fold. -/
def putChild (d : DirData) (n : String) (c : DirData) : DirData :=
  DirData.mk d.hashes d.files (setA d.dirs n c)

/-- The child record of `d` named `n` with the tree oid `o` inserted into
its `hashes`: the state of the child right after `markSeen` succeeded. -/
def markChild (d : DirData) (n : String) (o : Oid) : DirData :=
  DirData.mk ((childOf d n).hashes ++ [o]) (childOf d n).files (childOf d n).dirs

/-! ### Association-list lemmas -/

theorem lookupA_setA_self {α : Type} (l : List (String × α)) (k : String) (v : α) :
    lookupA (setA l k v) k = some v := by
  induction l with
  | nil => simp [setA, lookupA]
  | cons p t ih =>
    by_cases h : p.1 = k
    · simp [setA, lookupA, h]
    · simp [setA, lookupA, h, ih]

theorem lookupA_setA_ne {α : Type} (l : List (String × α)) {k k' : String} (v : α)
    (h : k' ≠ k) : lookupA (setA l k v) k' = lookupA l k' := by
  induction l with
  | nil => simp [setA, lookupA, Ne.symm h]
  | cons p t ih =>
    obtain ⟨k0, w⟩ := p
    by_cases hp : k0 = k
    · subst hp
      simp [setA, lookupA, Ne.symm h]
    · by_cases hq : k0 = k'
      · simp [setA, lookupA, hp, hq, h]
      · simp [setA, lookupA, hp, hq, ih]

theorem setA_lookup_self {α : Type} {l : List (String × α)} {k : String} {v : α}
    (h : lookupA l k = some v) : setA l k v = l := by
  induction l with
  | nil => simp [lookupA] at h
  | cons p t ih =>
    obtain ⟨k0, w⟩ := p
    by_cases hp : k0 = k
    · subst hp
      simp [lookupA] at h
      simp [setA, h]
    · simp [lookupA, hp] at h
      simp [setA, hp, ih h]

theorem setA_lookup_none {α : Type} {l : List (String × α)} {k : String} (v : α)
    (h : lookupA l k = none) : setA l k v = l ++ [(k, v)] := by
  induction l with
  | nil => simp [setA]
  | cons p t ih =>
    obtain ⟨k0, w⟩ := p
    by_cases hp : k0 = k
    · simp [lookupA, hp] at h
    · simp [lookupA, hp] at h
      simp [setA, hp, ih h]

theorem lookupA_append_right {α : Type} (l l' : List (String × α)) (k : String)
    (h : lookupA l k = none) : lookupA (l ++ l') k = lookupA l' k := by
  induction l with
  | nil => simp
  | cons p t ih =>
    obtain ⟨k0, w⟩ := p
    by_cases hp : k0 = k
    · simp [lookupA, hp] at h
    · simp [lookupA, hp] at h ⊢
      exact ih h

theorem lookupA_eq_none_iff {α : Type} (l : List (String × α)) (k : String) :
    lookupA l k = none ↔ k ∉ l.map Prod.fst := by
  induction l with
  | nil => simp [lookupA]
  | cons p t ih =>
    obtain ⟨k0, w⟩ := p
    by_cases hp : k0 = k
    · subst hp
      simp [lookupA]
    · simp [lookupA, hp, ih, Ne.symm hp]

theorem keys_setA_of_lookup_some {α : Type} {l : List (String × α)} {k : String}
    (v : α) (h : (lookupA l k).isSome) :
    (setA l k v).map Prod.fst = l.map Prod.fst := by
  induction l with
  | nil => simp [lookupA] at h
  | cons p t ih =>
    obtain ⟨k0, w⟩ := p
    by_cases hp : k0 = k
    · simp [setA, hp]
    · simp [lookupA, hp] at h
      simp [setA, hp, ih h]

/-! ### `get_mut_or_create_with` and `setInsert` lemmas -/

theorem gmocw_fst {α : Type} (m : List (String × α)) (k : String) (f : Unit → α) :
    (get_mut_or_create_with m k f).1 = (lookupA m k).getD (f ()) := by
  unfold get_mut_or_create_with entry_or_insert_with
  cases lookupA m k <;> rfl

theorem setA_gmocw_snd {α : Type} (m : List (String × α)) (k : String)
    (f : Unit → α) (v : α) :
    setA (get_mut_or_create_with m k f).2 k v = setA m k v := by
  unfold get_mut_or_create_with entry_or_insert_with
  cases h : lookupA m k with
  | some w => rfl
  | none =>
    rw [setA_lookup_none v h]
    have h2 : lookupA (m ++ [(k, f ())]) k = some (f ()) := by
      rw [lookupA_append_right _ _ _ h]; simp [lookupA]
    induction m with
    | nil => simp [setA, lookupA] at h2 ⊢
    | cons p t ih =>
      by_cases hp : p.1 = k
      · simp [lookupA, hp] at h
      · simp [lookupA, hp] at h
        simp [setA, hp]
        exact ih h (by rw [lookupA_append_right _ _ _ h]; simp [lookupA])

theorem setInsert_mem {s : List Oid} {x : Oid} (h : x ∈ s) :
    setInsert s x = (s, false) := by
  simp [setInsert, h]

theorem setInsert_not_mem {s : List Oid} {x : Oid} (h : x ∉ s) :
    setInsert s x = (s ++ [x], true) := by
  simp [setInsert, h]

theorem setInsert_fst_mem (s : List Oid) (x y : Oid) :
    y ∈ (setInsert s x).1 ↔ y ∈ s ∨ y = x := by
  by_cases h : x ∈ s
  · simp only [setInsert_mem h]
    constructor
    · exact fun hy => Or.inl hy
    · rintro (hy | rfl) <;> [exact hy; exact h]
  · simp [setInsert_not_mem h]

theorem setInsert_nodup {s : List Oid} (x : Oid) (h : s.Nodup) :
    (setInsert s x).1.Nodup := by
  by_cases hm : x ∈ s
  · simpa [setInsert_mem hm]
  · simp [setInsert_not_mem hm, List.nodup_append, h, hm]

/-! ### Branch equations for `foldEntries`

These restate the arms of the fold in terms of the readable state
operations `childOf`, `markChild`, `putChild` and `recordFile`. -/

theorem lookup_dirs_of_hashes_mem {d : DirData} {n : String} {o : Oid}
    (hm : o ∈ (childOf d n).hashes) : lookupA d.dirs n = some (childOf d n) := by
  cases hc : lookupA d.dirs n with
  | some c => simp [childOf, hc]
  | none =>
    exfalso
    rw [childOf, hc] at hm
    simp [DirData.new, DirData.hashes] at hm

theorem gmocw_dirs_fst (d : DirData) (n : String) :
    (get_mut_or_create_with d.dirs n (fun _ => DirData.new)).1 = childOf d n := by
  rw [gmocw_fst]; rfl

theorem gmocw_files_fst (d : DirData) (n : String) :
    (get_mut_or_create_with d.files n (fun _ => ([] : List Oid))).1 = fileOf d n := by
  rw [gmocw_fst]; rfl

theorem foldEntries_tree_mem (repo : Repo) (recur : List Entry → DirData → FoldRes)
    {n : String} {o : Oid} (es : List Entry) {d : DirData}
    (hm : o ∈ (childOf d n).hashes) :
    foldEntries repo recur (⟨n, o, .tree⟩ :: es) d = foldEntries repo recur es d := by
  have hc := lookup_dirs_of_hashes_mem hm
  simp only [foldEntries, gmocw_dirs_fst, setInsert_mem hm, setA_gmocw_snd]
  rw [DirData.eta, setA_lookup_self hc, DirData.eta]
  simp

theorem foldEntries_tree_new_git (repo : Repo) (recur : List Entry → DirData → FoldRes)
    {n : String} {o : Oid} (es : List Entry) {d : DirData} {g : GitErr}
    (hm : o ∉ (childOf d n).hashes) (hr : repo o = .error g) :
    foldEntries repo recur (⟨n, o, .tree⟩ :: es) d =
      ⟨putChild d n (markChild d n o), [o], some (.git g)⟩ := by
  simp only [foldEntries, gmocw_dirs_fst, setInsert_not_mem hm, setA_gmocw_snd, hr]
  rfl

theorem foldEntries_tree_new_nonTree (repo : Repo) (recur : List Entry → DirData → FoldRes)
    {n : String} {o : Oid} (es : List Entry) {d : DirData}
    (hm : o ∉ (childOf d n).hashes) (hr : repo o = .ok .nonTree) :
    foldEntries repo recur (⟨n, o, .tree⟩ :: es) d =
      ⟨putChild d n (markChild d n o), [o], some .panicked⟩ := by
  simp only [foldEntries, gmocw_dirs_fst, setInsert_not_mem hm, setA_gmocw_snd, hr]
  rfl

theorem foldEntries_tree_new_ok (repo : Repo) (recur : List Entry → DirData → FoldRes)
    {n : String} {o : Oid} (es : List Entry) {d : DirData} {subEs : List Entry}
    (hm : o ∉ (childOf d n).hashes) (hr : repo o = .ok (.tree subEs)) :
    foldEntries repo recur (⟨n, o, .tree⟩ :: es) d =
      (let r := recur subEs (markChild d n o)
       match r.err with
       | some f => ⟨putChild d n r.st, o :: r.calls, some f⟩
       | none =>
         let rest := foldEntries repo recur es (putChild d n r.st)
         ⟨rest.st, o :: (r.calls ++ rest.calls), rest.err⟩) := by
  simp only [foldEntries, gmocw_dirs_fst, setInsert_not_mem hm, setA_gmocw_snd, hr]
  rfl

theorem foldEntries_tree_new_ok_err (repo : Repo)
    (recur : List Entry → DirData → FoldRes) {n : String} {o : Oid}
    (es : List Entry) {d : DirData} {subEs : List Entry} {f : Failure}
    (hm : o ∉ (childOf d n).hashes) (hr : repo o = .ok (.tree subEs))
    (hre : (recur subEs (markChild d n o)).err = some f) :
    foldEntries repo recur (⟨n, o, .tree⟩ :: es) d =
      ⟨putChild d n (recur subEs (markChild d n o)).st,
        o :: (recur subEs (markChild d n o)).calls, some f⟩ := by
  rw [foldEntries_tree_new_ok _ _ _ hm hr]
  simp only [hre]

theorem foldEntries_tree_new_ok_none (repo : Repo)
    (recur : List Entry → DirData → FoldRes) {n : String} {o : Oid}
    (es : List Entry) {d : DirData} {subEs : List Entry}
    (hm : o ∉ (childOf d n).hashes) (hr : repo o = .ok (.tree subEs))
    (hre : (recur subEs (markChild d n o)).err = none) :
    foldEntries repo recur (⟨n, o, .tree⟩ :: es) d =
      ⟨(foldEntries repo recur es
          (putChild d n (recur subEs (markChild d n o)).st)).st,
        o :: ((recur subEs (markChild d n o)).calls ++
          (foldEntries repo recur es
            (putChild d n (recur subEs (markChild d n o)).st)).calls),
        (foldEntries repo recur es
          (putChild d n (recur subEs (markChild d n o)).st)).err⟩ := by
  rw [foldEntries_tree_new_ok _ _ _ hm hr]
  simp only [hre]

theorem foldEntries_blob (repo : Repo) (recur : List Entry → DirData → FoldRes)
    (n : String) (o : Oid) (es : List Entry) (d : DirData) :
    foldEntries repo recur (⟨n, o, .blob⟩ :: es) d =
      foldEntries repo recur es (recordFile d n o) := rfl

theorem foldEntries_other (repo : Repo) (recur : List Entry → DirData → FoldRes)
    (n : String) (o : Oid) (es : List Entry) (d : DirData) :
    foldEntries repo recur (⟨n, o, .other⟩ :: es) d =
      foldEntries repo recur es d := rfl

/-! ### Accessing the state through the update operations -/

theorem hashesAt_nil (d : DirData) : hashesAt d [] = d.hashes := rfl

theorem filesAt_nil (d : DirData) (n : String) : filesAt d [] n = fileOf d n := rfl

theorem hashesAt_new (q : List String) : hashesAt DirData.new q = [] := by
  cases q with
  | nil => rfl
  | cons m q => rfl

theorem filesAt_new (q : List String) (n : String) : filesAt DirData.new q n = [] := by
  cases q with
  | nil => rfl
  | cons m q => rfl

theorem mk_hashes (h : List Oid) (f : List (String × List Oid))
    (ds : List (String × DirData)) : (DirData.mk h f ds).hashes = h := rfl

theorem mk_files (h : List Oid) (f : List (String × List Oid))
    (ds : List (String × DirData)) : (DirData.mk h f ds).files = f := rfl

theorem mk_dirs (h : List Oid) (f : List (String × List Oid))
    (ds : List (String × DirData)) : (DirData.mk h f ds).dirs = ds := rfl

theorem hashesAt_cons (d : DirData) (n : String) (q : List String) :
    hashesAt d (n :: q) = hashesAt (childOf d n) q := by
  cases hc : lookupA d.dirs n with
  | some c => simp [hashesAt, nodeAt, hc, childOf]
  | none =>
    have hnew : childOf d n = DirData.new := by simp [childOf, hc]
    rw [hnew, hashesAt_new]
    simp [hashesAt, nodeAt, hc]

theorem filesAt_cons (d : DirData) (n : String) (q : List String) (m : String) :
    filesAt d (n :: q) m = filesAt (childOf d n) q m := by
  cases hc : lookupA d.dirs n with
  | some c => simp [filesAt, nodeAt, hc, childOf]
  | none =>
    have hnew : childOf d n = DirData.new := by simp [childOf, hc]
    rw [hnew, filesAt_new]
    simp [filesAt, nodeAt, hc]

theorem putChild_hashes (d : DirData) (n : String) (c : DirData) :
    (putChild d n c).hashes = d.hashes := rfl

theorem putChild_files (d : DirData) (n : String) (c : DirData) :
    (putChild d n c).files = d.files := rfl

theorem childOf_putChild_self (d : DirData) (n : String) (c : DirData) :
    childOf (putChild d n c) n = c := by
  simp [childOf, putChild, DirData.dirs, lookupA_setA_self]

theorem childOf_putChild_ne (d : DirData) {n n' : String} (c : DirData)
    (h : n' ≠ n) : childOf (putChild d n c) n' = childOf d n' := by
  simp [childOf, putChild, DirData.dirs, lookupA_setA_ne _ _ h]

theorem hashesAt_putChild_self (d : DirData) (n : String) (c : DirData)
    (q : List String) : hashesAt (putChild d n c) (n :: q) = hashesAt c q := by
  rw [hashesAt_cons, childOf_putChild_self]

theorem hashesAt_putChild_ne (d : DirData) {n n' : String} (c : DirData)
    (q : List String) (h : n' ≠ n) :
    hashesAt (putChild d n c) (n' :: q) = hashesAt d (n' :: q) := by
  rw [hashesAt_cons, childOf_putChild_ne _ _ h, ← hashesAt_cons]

theorem filesAt_putChild_self (d : DirData) (n : String) (c : DirData)
    (q : List String) (m : String) :
    filesAt (putChild d n c) (n :: q) m = filesAt c q m := by
  rw [filesAt_cons, childOf_putChild_self]

theorem filesAt_putChild_ne (d : DirData) {n n' : String} (c : DirData)
    (q : List String) (m : String) (h : n' ≠ n) :
    filesAt (putChild d n c) (n' :: q) m = filesAt d (n' :: q) m := by
  rw [filesAt_cons, childOf_putChild_ne _ _ h, ← filesAt_cons]

theorem recordFile_hashes (d : DirData) (n : String) (o : Oid) :
    (recordFile d n o).hashes = d.hashes := rfl

theorem recordFile_dirs (d : DirData) (n : String) (o : Oid) :
    (recordFile d n o).dirs = d.dirs := rfl

theorem fileOf_recordFile_self (d : DirData) (n : String) (o : Oid) :
    fileOf (recordFile d n o) n = (setInsert (fileOf d n) o).1 := by
  show (lookupA (recordFile d n o).files n).getD [] = _
  unfold recordFile
  simp only [mk_files, setA_gmocw_snd, gmocw_files_fst, lookupA_setA_self,
    Option.getD_some]

theorem fileOf_recordFile_ne (d : DirData) {n n' : String} (o : Oid)
    (h : n' ≠ n) : fileOf (recordFile d n o) n' = fileOf d n' := by
  show (lookupA (recordFile d n o).files n').getD [] = _
  unfold recordFile
  simp only [mk_files, setA_gmocw_snd, lookupA_setA_ne _ _ h]
  rfl

theorem hashesAt_recordFile (d : DirData) (n : String) (o : Oid) (q : List String) :
    hashesAt (recordFile d n o) q = hashesAt d q := by
  cases q with
  | nil => rfl
  | cons m q => rfl

theorem filesAt_recordFile_cons (d : DirData) (n : String) (o : Oid)
    (m : String) (q : List String) (n' : String) :
    filesAt (recordFile d n o) (m :: q) n' = filesAt d (m :: q) n' := rfl

theorem markChild_hashes (d : DirData) (n : String) (o : Oid) :
    (markChild d n o).hashes = (childOf d n).hashes ++ [o] := rfl

theorem hashesAt_markChild_cons (d : DirData) (n : String) (o : Oid)
    (m : String) (q : List String) :
    hashesAt (markChild d n o) (m :: q) = hashesAt (childOf d n) (m :: q) := rfl

theorem filesAt_markChild (d : DirData) (n : String) (o : Oid)
    (q : List String) (m : String) :
    filesAt (markChild d n o) q m = filesAt (childOf d n) q m := by
  cases q with
  | nil => rfl
  | cons m' q => rfl

/-! ### Monotonicity: folding only grows the cache -/

/-- Pointwise inclusion of the recorded tree-oid and blob-oid sets. -/
def SubD (d1 d2 : DirData) : Prop :=
  (∀ q h, h ∈ hashesAt d1 q → h ∈ hashesAt d2 q) ∧
  (∀ q n o, o ∈ filesAt d1 q n → o ∈ filesAt d2 q n)

theorem SubD.rfl (d : DirData) : SubD d d :=
  ⟨fun _ _ h => h, fun _ _ _ h => h⟩

theorem SubD.trans {d1 d2 d3 : DirData} (h1 : SubD d1 d2) (h2 : SubD d2 d3) :
    SubD d1 d3 :=
  ⟨fun q h hh => h2.1 q h (h1.1 q h hh), fun q n o ho => h2.2 q n o (h1.2 q n o ho)⟩

theorem SubD_putChild {d : DirData} {n : String} {c : DirData}
    (h : SubD (childOf d n) c) : SubD d (putChild d n c) := by
  constructor
  · intro q x hx
    cases q with
    | nil => exact hx
    | cons m q =>
      by_cases hm : m = n
      · subst hm
        rw [hashesAt_cons] at hx
        rw [hashesAt_putChild_self]
        exact h.1 q x hx
      · rwa [hashesAt_putChild_ne _ _ _ hm]
  · intro q nm o ho
    cases q with
    | nil => exact ho
    | cons m q =>
      by_cases hm : m = n
      · subst hm
        rw [filesAt_cons] at ho
        rw [filesAt_putChild_self]
        exact h.2 q nm o ho
      · rwa [filesAt_putChild_ne _ _ _ _ hm]

theorem SubD_recordFile (d : DirData) (n : String) (o : Oid) :
    SubD d (recordFile d n o) := by
  constructor
  · intro q x hx
    rwa [hashesAt_recordFile]
  · intro q nm o' ho
    cases q with
    | nil =>
      by_cases hm : nm = n
      · subst hm
        rw [filesAt_nil] at ho ⊢
        rw [fileOf_recordFile_self]
        exact (setInsert_fst_mem _ _ _).2 (Or.inl ho)
      · rwa [filesAt_nil, fileOf_recordFile_ne _ _ hm, ← filesAt_nil]
    | cons m q => rwa [filesAt_recordFile_cons]

theorem SubD_markChild (d : DirData) (n : String) (o : Oid) :
    SubD (childOf d n) (markChild d n o) := by
  constructor
  · intro q x hx
    cases q with
    | nil =>
      rw [hashesAt_nil, markChild_hashes]
      exact List.mem_append_left _ hx
    | cons m q => rwa [hashesAt_markChild_cons]
  · intro q nm o' ho
    rwa [filesAt_markChild]

theorem foldEntries_mono (repo : Repo) (recur : List Entry → DirData → FoldRes)
    (hrec : ∀ es c, SubD c (recur es c).st) :
    ∀ es d, SubD d (foldEntries repo recur es d).st := by
  intro es
  induction es with
  | nil => intro d; exact SubD.rfl d
  | cons e es ih =>
    intro d
    obtain ⟨n, o, k⟩ := e
    cases k with
    | tree =>
      by_cases hm : o ∈ (childOf d n).hashes
      · rw [foldEntries_tree_mem _ _ _ hm]
        exact ih d
      · cases hr : repo o with
        | error g =>
          rw [foldEntries_tree_new_git _ _ _ hm hr]
          exact SubD_putChild ((SubD_markChild d n o).trans (SubD.rfl _))
        | ok obj =>
          cases obj with
          | nonTree =>
            rw [foldEntries_tree_new_nonTree _ _ _ hm hr]
            exact SubD_putChild (SubD_markChild d n o)
          | tree subEs =>
            have hsub : SubD (childOf d n) (recur subEs (markChild d n o)).st :=
              (SubD_markChild d n o).trans (hrec _ _)
            cases hre : (recur subEs (markChild d n o)).err with
            | some f =>
              rw [foldEntries_tree_new_ok_err _ _ _ hm hr hre]
              exact SubD_putChild hsub
            | none =>
              rw [foldEntries_tree_new_ok_none _ _ _ hm hr hre]
              exact (SubD_putChild hsub).trans (ih _)
    | blob =>
      rw [foldEntries_blob]
      exact (SubD_recordFile d n o).trans (ih _)
    | other =>
      rw [foldEntries_other]
      exact ih d

theorem update_for_tree_mono (repo : Repo) :
    ∀ fuel es d, SubD d (update_for_tree repo fuel es d).st := by
  intro fuel
  induction fuel with
  | zero => intro es d; exact SubD.rfl d
  | succ fuel ih =>
    intro es d
    exact foldEntries_mono repo _ (fun es c => ih es c) es d

theorem run_fold_cons_err {repo : Repo} {fuel : Nat} {t : List Entry}
    (ts : List (List Entry)) {d : DirData} {f : Failure}
    (h : (update_for_tree repo fuel t d).err = some f) :
    run_fold repo fuel (t :: ts) d =
      ⟨(update_for_tree repo fuel t d).st,
        (update_for_tree repo fuel t d).calls, some f⟩ := by
  simp only [run_fold, h]

theorem run_fold_cons_ok {repo : Repo} {fuel : Nat} {t : List Entry}
    (ts : List (List Entry)) {d : DirData}
    (h : (update_for_tree repo fuel t d).err = none) :
    run_fold repo fuel (t :: ts) d =
      ⟨(run_fold repo fuel ts (update_for_tree repo fuel t d).st).st,
        (update_for_tree repo fuel t d).calls ++
          (run_fold repo fuel ts (update_for_tree repo fuel t d).st).calls,
        (run_fold repo fuel ts (update_for_tree repo fuel t d).st).err⟩ := by
  simp only [run_fold, h]

theorem run_fold_mono (repo : Repo) (fuel : Nat) :
    ∀ ts d, SubD d (run_fold repo fuel ts d).st := by
  intro ts
  induction ts with
  | nil => intro d; exact SubD.rfl d
  | cons t ts ih =>
    intro d
    cases he : (update_for_tree repo fuel t d).err with
    | some f =>
      rw [run_fold_cons_err ts he]
      exact update_for_tree_mono repo fuel t d
    | none =>
      rw [run_fold_cons_ok ts he]
      exact (update_for_tree_mono repo fuel t d).trans (ih _)

/-- Folding never touches the `hashes` field of the record it is invoked
on (only children are hash-gated; the root's own set stays empty). -/
theorem foldEntries_st_hashes (repo : Repo) (recur : List Entry → DirData → FoldRes) :
    ∀ es d, (foldEntries repo recur es d).st.hashes = d.hashes := by
  intro es
  induction es with
  | nil => intro d; rfl
  | cons e es ih =>
    intro d
    obtain ⟨n, o, k⟩ := e
    cases k with
    | tree =>
      by_cases hm : o ∈ (childOf d n).hashes
      · rw [foldEntries_tree_mem _ _ _ hm]; exact ih d
      · cases hr : repo o with
        | error g => rw [foldEntries_tree_new_git _ _ _ hm hr]; rfl
        | ok obj =>
          cases obj with
          | nonTree => rw [foldEntries_tree_new_nonTree _ _ _ hm hr]; rfl
          | tree subEs =>
            cases hre : (recur subEs (markChild d n o)).err with
            | some f => rw [foldEntries_tree_new_ok_err _ _ _ hm hr hre]; rfl
            | none =>
              rw [foldEntries_tree_new_ok_none _ _ _ hm hr hre]
              rw [ih]
              rfl
    | blob => rw [foldEntries_blob]; rw [ih]; rfl
    | other => rw [foldEntries_other]; exact ih d

theorem update_for_tree_st_hashes (repo : Repo) (fuel : Nat) (es : List Entry)
    (d : DirData) : (update_for_tree repo fuel es d).st.hashes = d.hashes := by
  cases fuel with
  | zero => rfl
  | succ fuel => exact foldEntries_st_hashes repo _ es d

/-! ### Reference semantics: reachable content of a snapshot

`ReachBlob repo es q n o` says: starting from the entry list `es`,
descending along the directory names in `q` (resolving each tree oid
through `repo`), one reaches a blob entry named `n` with oid `o`.
`ReachHash repo es q h` says: the tree oid `h` labels the directory at
path `q` (so `q` is nonempty — the starting entry list itself has no
name).  These are the contents the fold is meant to accumulate. -/

inductive ReachBlob (repo : Repo) : List Entry → List String → String → Oid → Prop where
  | here {es : List Entry} {n : String} {o : Oid}
      (hmem : Entry.mk n o .blob ∈ es) : ReachBlob repo es [] n o
  | step {es : List Entry} {dn : String} {h : Oid} {es' : List Entry}
      {q : List String} {n : String} {o : Oid}
      (hmem : Entry.mk dn h .tree ∈ es) (hres : repo h = .ok (.tree es'))
      (htl : ReachBlob repo es' q n o) : ReachBlob repo es (dn :: q) n o

inductive ReachHash (repo : Repo) : List Entry → List String → Oid → Prop where
  | here {es : List Entry} {dn : String} {h : Oid}
      (hmem : Entry.mk dn h .tree ∈ es) : ReachHash repo es [dn] h
  | step {es : List Entry} {dn : String} {h : Oid} {es' : List Entry}
      {q : List String} {h' : Oid}
      (hmem : Entry.mk dn h .tree ∈ es) (hres : repo h = .ok (.tree es'))
      (htl : ReachHash repo es' q h') : ReachHash repo es (dn :: q) h'

theorem reachBlob_tail {repo : Repo} {e : Entry} {es : List Entry}
    {q : List String} {n : String} {o : Oid} (h : ReachBlob repo es q n o) :
    ReachBlob repo (e :: es) q n o := by
  cases h with
  | here hmem => exact .here (List.mem_cons_of_mem _ hmem)
  | step hmem hres htl => exact .step (List.mem_cons_of_mem _ hmem) hres htl

theorem reachHash_tail {repo : Repo} {e : Entry} {es : List Entry}
    {q : List String} {h' : Oid} (h : ReachHash repo es q h') :
    ReachHash repo (e :: es) q h' := by
  cases h with
  | here hmem => exact .here (List.mem_cons_of_mem _ hmem)
  | step hmem hres htl => exact .step (List.mem_cons_of_mem _ hmem) hres htl

/-- The full reachable content of tree oid `h` is present in `d` below
path `q`: the meaning of "this snapshot has been folded here". -/
def ContFolded (repo : Repo) (d : DirData) (q : List String) (h : Oid) : Prop :=
  ∀ es', repo h = .ok (.tree es') →
    (∀ q' n o, ReachBlob repo es' q' n o → o ∈ filesAt d (q ++ q') n) ∧
    (∀ q' h', ReachHash repo es' q' h' → h' ∈ hashesAt d (q ++ q'))

/-- The central invariant: every tree oid recorded anywhere in the cache
has been fully folded at its path — except, during a recursive descent,
the oid `pend` currently being folded at the root of this subtree. -/
def Folded (repo : Repo) (d : DirData) (pend : Option Oid) : Prop :=
  ∀ q h, h ∈ hashesAt d q → ¬(q = [] ∧ some h = pend) → ContFolded repo d q h

theorem ContFolded_mono {repo : Repo} {d1 d2 : DirData} {q : List String}
    {h : Oid} (hs : SubD d1 d2) (hc : ContFolded repo d1 q h) :
    ContFolded repo d2 q h := by
  intro es' hres
  obtain ⟨hb, hh⟩ := hc es' hres
  exact ⟨fun q' n o hr => hs.2 _ _ _ (hb q' n o hr),
    fun q' h' hr => hs.1 _ _ (hh q' h' hr)⟩

theorem ContFolded_cons {repo : Repo} {d : DirData} {dn : String}
    {q : List String} {h : Oid} :
    ContFolded repo d (dn :: q) h ↔ ContFolded repo (childOf d dn) q h := by
  constructor
  · intro hc es' hres
    obtain ⟨hb, hh⟩ := hc es' hres
    refine ⟨fun q' n o hr => ?_, fun q' h' hr => ?_⟩
    · have := hb q' n o hr
      rwa [List.cons_append, filesAt_cons] at this
    · have := hh q' h' hr
      rwa [List.cons_append, hashesAt_cons] at this
  · intro hc es' hres
    obtain ⟨hb, hh⟩ := hc es' hres
    refine ⟨fun q' n o hr => ?_, fun q' h' hr => ?_⟩
    · rw [List.cons_append, filesAt_cons]
      exact hb q' n o hr
    · rw [List.cons_append, hashesAt_cons]
      exact hh q' h' hr

theorem ContFolded_putChild_lift {repo : Repo} {d : DirData} {n : String}
    {c : DirData} {q : List String} {h : Oid}
    (hc : ContFolded repo c q h) : ContFolded repo (putChild d n c) (n :: q) h := by
  rw [ContFolded_cons, childOf_putChild_self]
  exact hc

theorem Folded_new (repo : Repo) (pend : Option Oid) :
    Folded repo DirData.new pend := by
  intro q h hh
  rw [hashesAt_new] at hh
  exact absurd hh (List.not_mem_nil h)

theorem Folded_recordFile {repo : Repo} {d : DirData} {pend : Option Oid}
    (hf : Folded repo d pend) (n : String) (o : Oid) :
    Folded repo (recordFile d n o) pend := by
  intro q h hh hex
  rw [hashesAt_recordFile] at hh
  exact ContFolded_mono (SubD_recordFile d n o) (hf q h hh hex)

theorem Folded_markChild {repo : Repo} {d : DirData} {pend : Option Oid}
    (hf : Folded repo d pend) (n : String) (o : Oid) :
    Folded repo (markChild d n o) (some o) := by
  intro q h hh hex
  cases q with
  | nil =>
    rw [hashesAt_nil, markChild_hashes] at hh
    rcases List.mem_append.mp hh with hold | hnew
    · have hd : h ∈ hashesAt d [n] := by rwa [hashesAt_cons]
      have hcf : ContFolded repo d [n] h :=
        hf [n] h hd (by simp)
      have : ContFolded repo (childOf d n) [] h := ContFolded_cons.mp hcf
      exact ContFolded_mono (SubD_markChild d n o) this
    · exfalso
      simp at hnew
      exact hex ⟨rfl, by rw [hnew]⟩
  | cons m q' =>
    rw [hashesAt_markChild_cons] at hh
    have hd : h ∈ hashesAt d (n :: m :: q') := by rwa [hashesAt_cons]
    have hcf : ContFolded repo d (n :: m :: q') h := hf _ h hd (by simp)
    have : ContFolded repo (childOf d n) (m :: q') h := ContFolded_cons.mp hcf
    exact ContFolded_mono (SubD_markChild d n o) this

theorem ContFolded_self_putChild {repo : Repo} {d : DirData} {n : String}
    {o : Oid} {subEs : List Entry} {rst : DirData}
    (hr : repo o = .ok (.tree subEs))
    (hA : ∀ q' n' o', ReachBlob repo subEs q' n' o' → o' ∈ filesAt rst q' n')
    (hB : ∀ q' h', ReachHash repo subEs q' h' → h' ∈ hashesAt rst q') :
    ContFolded repo (putChild d n rst) [n] o := by
  intro es' hres
  have hes : es' = subEs := by
    rw [hr] at hres
    injection hres with h1
    injection h1 with h2
    exact h2.symm
  subst hes
  constructor
  · intro q' n' o' hrb
    have := hA q' n' o' hrb
    show o' ∈ filesAt (putChild d n rst) (n :: q') n'
    rwa [filesAt_putChild_self]
  · intro q' h' hrh
    have := hB q' h' hrh
    show h' ∈ hashesAt (putChild d n rst) (n :: q')
    rwa [hashesAt_putChild_self]

theorem Folded_putChild_after {repo : Repo} {d : DirData} {n : String}
    {o : Oid} {subEs : List Entry} {rst : DirData} {pend : Option Oid}
    (hf : Folded repo d pend) (hr : repo o = .ok (.tree subEs))
    (hA : ∀ q' n' o', ReachBlob repo subEs q' n' o' → o' ∈ filesAt rst q' n')
    (hB : ∀ q' h', ReachHash repo subEs q' h' → h' ∈ hashesAt rst q')
    (hC : Folded repo rst (some o))
    (hsub : SubD (childOf d n) rst) :
    Folded repo (putChild d n rst) pend := by
  intro q h hh hex
  cases q with
  | nil =>
    rw [hashesAt_nil, putChild_hashes] at hh
    exact ContFolded_mono (SubD_putChild hsub) (hf [] h hh hex)
  | cons m q' =>
    by_cases hmn : m = n
    · subst hmn
      rw [hashesAt_putChild_self] at hh
      by_cases hpo : q' = [] ∧ h = o
      · obtain ⟨rfl, rfl⟩ := hpo
        exact ContFolded_self_putChild hr hA hB
      · have hcf : ContFolded repo rst q' h := by
          refine hC q' h hh ?_
          intro ⟨hq, hho⟩
          exact hpo ⟨hq, Option.some_injective _ hho⟩
        exact ContFolded_putChild_lift hcf
    · rw [hashesAt_putChild_ne _ _ _ hmn] at hh
      exact ContFolded_mono (SubD_putChild hsub) (hf _ h hh (by simp))

theorem reachBlob_cons_cases {repo : Repo} {e : Entry} {es : List Entry}
    {q : List String} {n : String} {o : Oid}
    (h : ReachBlob repo (e :: es) q n o) :
    ReachBlob repo es q n o ∨
    (q = [] ∧ e = ⟨n, o, .blob⟩) ∨
    (∃ dn h0 es' q', e = ⟨dn, h0, .tree⟩ ∧ q = dn :: q' ∧
      repo h0 = .ok (.tree es') ∧ ReachBlob repo es' q' n o) := by
  cases h with
  | here hmem =>
    rcases List.mem_cons.mp hmem with he | hmm
    · exact Or.inr (Or.inl ⟨rfl, he.symm⟩)
    · exact Or.inl (.here hmm)
  | step hmem hres htl =>
    rcases List.mem_cons.mp hmem with he | hmm
    · exact Or.inr (Or.inr ⟨_, _, _, _, he.symm, rfl, hres, htl⟩)
    · exact Or.inl (.step hmm hres htl)

theorem reachHash_cons_cases {repo : Repo} {e : Entry} {es : List Entry}
    {q : List String} {h' : Oid}
    (h : ReachHash repo (e :: es) q h') :
    ReachHash repo es q h' ∨
    (∃ dn, e = ⟨dn, h', .tree⟩ ∧ q = [dn]) ∨
    (∃ dn h0 es' q', e = ⟨dn, h0, .tree⟩ ∧ q = dn :: q' ∧
      repo h0 = .ok (.tree es') ∧ ReachHash repo es' q' h') := by
  cases h with
  | here hmem =>
    rcases List.mem_cons.mp hmem with he | hmm
    · exact Or.inr (Or.inl ⟨_, he.symm, rfl⟩)
    · exact Or.inl (.here hmm)
  | step hmem hres htl =>
    rcases List.mem_cons.mp hmem with he | hmm
    · exact Or.inr (Or.inr ⟨_, _, _, _, he.symm, rfl, hres, htl⟩)
    · exact Or.inl (.step hmm hres htl)

/-- Everything the fold guarantees once it returns without error:
(1) every blob reachable from the folded entries is recorded;
(2) every tree oid reachable from them is recorded;
(3) the "seen implies folded" invariant still holds;
(4) every newly recorded tree oid is itself fully folded. -/
def FoldedAfter (repo : Repo) (es : List Entry) (d dst : DirData)
    (pend : Option Oid) : Prop :=
  (∀ q n o, ReachBlob repo es q n o → o ∈ filesAt dst q n) ∧
  (∀ q h, ReachHash repo es q h → h ∈ hashesAt dst q) ∧
  Folded repo dst pend ∧
  (∀ q h, h ∈ hashesAt dst q → h ∉ hashesAt d q → ContFolded repo dst q h)

theorem foldEntries_folded (repo : Repo) (recur : List Entry → DirData → FoldRes)
    (hmono : ∀ es c, SubD c (recur es c).st)
    (hhash : ∀ es c, (recur es c).st.hashes = c.hashes)
    (hrec : ∀ es c pend, Folded repo c pend → (recur es c).err = none →
      FoldedAfter repo es c (recur es c).st pend) :
    ∀ es d pend, Folded repo d pend → (foldEntries repo recur es d).err = none →
      FoldedAfter repo es d (foldEntries repo recur es d).st pend := by
  intro es
  induction es with
  | nil =>
    intro d pend hf _
    refine ⟨?_, ?_, hf, ?_⟩
    · intro q n o hr
      cases hr with
      | here hmem => exact absurd hmem (List.not_mem_nil _)
      | step hmem _ _ => exact absurd hmem (List.not_mem_nil _)
    · intro q h hr
      cases hr with
      | here hmem => exact absurd hmem (List.not_mem_nil _)
      | step hmem _ _ => exact absurd hmem (List.not_mem_nil _)
    · intro q h h1 h2
      exact absurd h1 h2
  | cons e es ih =>
    intro d pend hf herr
    obtain ⟨n, o, k⟩ := e
    cases k with
    | other =>
      rw [foldEntries_other] at herr ⊢
      obtain ⟨A2, B2, C2, D2⟩ := ih d pend hf herr
      refine ⟨?_, ?_, C2, D2⟩
      · intro q n' o' hr
        rcases reachBlob_cons_cases hr with htail | ⟨rfl, he⟩ | ⟨dn, h0, es', q', he, rfl, hres, htl⟩
        · exact A2 _ _ _ htail
        · simp at he
        · simp at he
      · intro q h' hr
        rcases reachHash_cons_cases hr with htail | ⟨dn, he, rfl⟩ | ⟨dn, h0, es', q', he, rfl, hres, htl⟩
        · exact B2 _ _ htail
        · simp at he
        · simp at he
    | blob =>
      rw [foldEntries_blob] at herr ⊢
      have hf' : Folded repo (recordFile d n o) pend := Folded_recordFile hf n o
      obtain ⟨A2, B2, C2, D2⟩ := ih (recordFile d n o) pend hf' herr
      have hmonoR : SubD (recordFile d n o)
          (foldEntries repo recur es (recordFile d n o)).st :=
        foldEntries_mono repo recur hmono es _
      refine ⟨?_, ?_, C2, ?_⟩
      · intro q n' o' hr
        rcases reachBlob_cons_cases hr with htail | ⟨rfl, he⟩ | ⟨dn, h0, es', q', he, rfl, hres, htl⟩
        · exact A2 _ _ _ htail
        · have hn : n = n' ∧ o = o' := by
            have := Entry.mk.injEq n o .blob n' o' .blob
            rw [he] at this
            simp at this
            exact ⟨this.1, this.2⟩
          obtain ⟨rfl, rfl⟩ := hn
          refine hmonoR.2 [] n o ?_
          rw [filesAt_nil, fileOf_recordFile_self]
          exact (setInsert_fst_mem _ _ _).2 (Or.inr rfl)
        · simp at he
      · intro q h' hr
        rcases reachHash_cons_cases hr with htail | ⟨dn, he, rfl⟩ | ⟨dn, h0, es', q', he, rfl, hres, htl⟩
        · exact B2 _ _ htail
        · simp at he
        · simp at he
      · intro q h' h1 h2
        refine D2 q h' h1 ?_
        rwa [hashesAt_recordFile]
    | tree =>
      by_cases hm : o ∈ (childOf d n).hashes
      · -- gated: the oid was already seen at this child, skip entirely
        rw [foldEntries_tree_mem _ _ _ hm] at herr ⊢
        obtain ⟨A2, B2, C2, D2⟩ := ih d pend hf herr
        have hsubd : SubD d (foldEntries repo recur es d).st :=
          foldEntries_mono repo recur hmono es d
        have hoD : o ∈ hashesAt d [n] := by rwa [hashesAt_cons]
        have hcfD : ContFolded repo d [n] o := hf [n] o hoD (by simp)
        refine ⟨?_, ?_, C2, D2⟩
        · intro q n' o' hr
          rcases reachBlob_cons_cases hr with htail | ⟨rfl, he⟩ | ⟨dn, h0, es', q', he, rfl, hres, htl⟩
          · exact A2 _ _ _ htail
          · simp at he
          · have hdh : n = dn ∧ o = h0 := by
              have := Entry.mk.injEq n o .tree dn h0 .tree
              rw [he] at this
              simp at this
              exact ⟨this.1, this.2⟩
            obtain ⟨rfl, rfl⟩ := hdh
            exact hsubd.2 _ _ _ ((hcfD es' hres).1 q' n' o' htl)
        · intro q h' hr
          rcases reachHash_cons_cases hr with htail | ⟨dn, he, rfl⟩ | ⟨dn, h0, es', q', he, rfl, hres, htl⟩
          · exact B2 _ _ htail
          · have hdh : n = dn ∧ o = h' := by
              have := Entry.mk.injEq n o .tree dn h' .tree
              rw [he] at this
              simp at this
              exact ⟨this.1, this.2⟩
            obtain ⟨rfl, rfl⟩ := hdh
            exact hsubd.1 _ _ hoD
          · have hdh : n = dn ∧ o = h0 := by
              have := Entry.mk.injEq n o .tree dn h0 .tree
              rw [he] at this
              simp at this
              exact ⟨this.1, this.2⟩
            obtain ⟨rfl, rfl⟩ := hdh
            exact hsubd.1 _ _ ((hcfD es' hres).2 q' h' htl)
      · -- first sighting: the child snapshot is resolved and folded
        cases hr : repo o with
        | error g =>
          rw [foldEntries_tree_new_git _ _ _ hm hr] at herr
          exact absurd herr (by simp)
        | ok obj =>
          cases obj with
          | nonTree =>
            rw [foldEntries_tree_new_nonTree _ _ _ hm hr] at herr
            exact absurd herr (by simp)
          | tree subEs =>
            cases hre : (recur subEs (markChild d n o)).err with
            | some f =>
              rw [foldEntries_tree_new_ok_err _ _ _ hm hr hre] at herr
              exact absurd herr (by simp)
            | none =>
              rw [foldEntries_tree_new_ok_none _ _ _ hm hr hre] at herr ⊢
              -- the recursive fold of the child snapshot
              have hfm : Folded repo (markChild d n o) (some o) :=
                Folded_markChild hf n o
              obtain ⟨A1, B1, C1, D1⟩ := hrec subEs (markChild d n o) (some o) hfm hre
              have hsubr : SubD (childOf d n) (recur subEs (markChild d n o)).st :=
                (SubD_markChild d n o).trans (hmono _ _)
              have hf2 : Folded repo
                  (putChild d n (recur subEs (markChild d n o)).st) pend :=
                Folded_putChild_after hf hr A1 B1 C1 hsubr
              obtain ⟨A2, B2, C2, D2⟩ := ih _ pend hf2 herr
              have hsubRest : SubD (putChild d n (recur subEs (markChild d n o)).st)
                  (foldEntries repo recur es
                    (putChild d n (recur subEs (markChild d n o)).st)).st :=
                foldEntries_mono repo recur hmono es _
              have hCO : ContFolded repo
                  (putChild d n (recur subEs (markChild d n o)).st) [n] o :=
                ContFolded_self_putChild hr A1 B1
              refine ⟨?_, ?_, C2, ?_⟩
              · intro q n' o' hrb
                rcases reachBlob_cons_cases hrb with htail | ⟨rfl, he⟩ | ⟨dn, h0, es', q', he, rfl, hres, htl⟩
                · exact A2 _ _ _ htail
                · simp at he
                · have hdh : n = dn ∧ o = h0 := by
                    have := Entry.mk.injEq n o .tree dn h0 .tree
                    rw [he] at this
                    simp at this
                    exact ⟨this.1, this.2⟩
                  obtain ⟨rfl, rfl⟩ := hdh
                  have hes : es' = subEs := by
                    rw [hr] at hres
                    injection hres with h1
                    injection h1 with h2
                    exact h2.symm
                  rw [hes] at htl
                  have h1 : o' ∈ filesAt
                      (putChild d n (recur subEs (markChild d n o)).st) (n :: q') n' := by
                    rw [filesAt_putChild_self]
                    exact A1 q' n' o' htl
                  exact hsubRest.2 _ _ _ h1
              · intro q h' hrh
                rcases reachHash_cons_cases hrh with htail | ⟨dn, he, rfl⟩ | ⟨dn, h0, es', q', he, rfl, hres, htl⟩
                · exact B2 _ _ htail
                · have hdh : n = dn ∧ o = h' := by
                    have := Entry.mk.injEq n o .tree dn h' .tree
                    rw [he] at this
                    simp at this
                    exact ⟨this.1, this.2⟩
                  obtain ⟨rfl, rfl⟩ := hdh
                  refine hsubRest.1 [n] o ?_
                  rw [hashesAt_putChild_self, hashesAt_nil, hhash, markChild_hashes]
                  exact List.mem_append_right _ (by simp)
                · have hdh : n = dn ∧ o = h0 := by
                    have := Entry.mk.injEq n o .tree dn h0 .tree
                    rw [he] at this
                    simp at this
                    exact ⟨this.1, this.2⟩
                  obtain ⟨rfl, rfl⟩ := hdh
                  have hes : es' = subEs := by
                    rw [hr] at hres
                    injection hres with h1
                    injection h1 with h2
                    exact h2.symm
                  rw [hes] at htl
                  have h1 : h' ∈ hashesAt
                      (putChild d n (recur subEs (markChild d n o)).st) (n :: q') := by
                    rw [hashesAt_putChild_self]
                    exact B1 q' h' htl
                  exact hsubRest.1 _ _ h1
              · -- every newly recorded hash is fully folded
                intro q h' h1 h2
                by_cases hmid : h' ∈ hashesAt
                    (putChild d n (recur subEs (markChild d n o)).st) q
                · -- already recorded before the tail fold: it entered while
                  -- processing this entry
                  cases q with
                  | nil =>
                    exfalso
                    rw [hashesAt_nil, putChild_hashes, ← hashesAt_nil] at hmid
                    exact h2 hmid
                  | cons m q' =>
                    by_cases hmn : m = n
                    · rw [hmn] at hmid h2 ⊢
                      rw [hashesAt_putChild_self] at hmid
                      by_cases hpo : q' = [] ∧ h' = o
                      · obtain ⟨rfl, rfl⟩ := hpo
                        exact ContFolded_mono hsubRest hCO
                      · by_cases hold : h' ∈ hashesAt (markChild d n o) q'
                        · -- present before the recursive fold: then it was in
                          -- `d` already, contradiction
                          exfalso
                          cases q' with
                          | nil =>
                            rw [hashesAt_nil, markChild_hashes] at hold
                            rcases List.mem_append.mp hold with hc | hc
                            · refine h2 ?_
                              rw [hashesAt_cons]
                              exact hc
                            · simp at hc
                              exact hpo ⟨rfl, hc⟩
                          | cons m2 q2 =>
                            rw [hashesAt_markChild_cons] at hold
                            refine h2 ?_
                            rw [hashesAt_cons]
                            exact hold
                        · -- recorded during the recursive fold: (D1) applies
                          have := D1 q' h' hmid hold
                          exact ContFolded_mono hsubRest (ContFolded_putChild_lift this)
                    · exfalso
                      rw [hashesAt_putChild_ne _ _ _ hmn] at hmid
                      exact h2 hmid
                · exact D2 q h' h1 hmid

/-- Upper bound: folding records nothing beyond what is reachable from
the folded entries. -/
def SoundAfter (repo : Repo) (es : List Entry) (d dst : DirData) : Prop :=
  (∀ q n o, o ∈ filesAt dst q n → o ∈ filesAt d q n ∨ ReachBlob repo es q n o) ∧
  (∀ q h, h ∈ hashesAt dst q → h ∈ hashesAt d q ∨ ReachHash repo es q h)

theorem sound_putChild_mark (repo : Repo) (es : List Entry) (d : DirData)
    (n : String) (o : Oid) :
    SoundAfter repo (⟨n, o, .tree⟩ :: es) d (putChild d n (markChild d n o)) := by
  constructor
  · intro q n' o' ho
    left
    cases q with
    | nil => exact ho
    | cons m q' =>
      by_cases hmn : m = n
      · rw [hmn] at ho ⊢
        rw [filesAt_putChild_self, filesAt_markChild] at ho
        rwa [filesAt_cons]
      · rwa [filesAt_putChild_ne _ _ _ _ hmn] at ho
  · intro q h' hh
    cases q with
    | nil => exact Or.inl hh
    | cons m q' =>
      by_cases hmn : m = n
      · rw [hmn] at hh ⊢
        rw [hashesAt_putChild_self] at hh
        cases q' with
        | nil =>
          rw [hashesAt_nil, markChild_hashes] at hh
          rcases List.mem_append.mp hh with hc | hc
          · left
            rwa [hashesAt_cons]
          · simp at hc
            subst hc
            exact Or.inr (.here (List.mem_cons_self _ _))
        | cons m2 q2 =>
          rw [hashesAt_markChild_cons] at hh
          left
          rwa [hashesAt_cons]
      · rw [hashesAt_putChild_ne _ _ _ hmn] at hh
        exact Or.inl hh

theorem sound_putChild_step {repo : Repo} {es : List Entry} {d : DirData}
    {n : String} {o : Oid} {subEs : List Entry} {rst : DirData}
    (hr : repo o = .ok (.tree subEs))
    (hrecS : SoundAfter repo subEs (markChild d n o) rst) :
    SoundAfter repo (⟨n, o, .tree⟩ :: es) d (putChild d n rst) := by
  constructor
  · intro q n' o' ho
    cases q with
    | nil => exact Or.inl ho
    | cons m q' =>
      by_cases hmn : m = n
      · rw [hmn] at ho ⊢
        rw [filesAt_putChild_self] at ho
        rcases hrecS.1 q' n' o' ho with hold | hreach
        · left
          rw [filesAt_markChild] at hold
          rwa [filesAt_cons]
        · exact Or.inr (.step (List.mem_cons_self _ _) hr hreach)
      · rw [filesAt_putChild_ne _ _ _ _ hmn] at ho
        exact Or.inl ho
  · intro q h' hh
    cases q with
    | nil => exact Or.inl hh
    | cons m q' =>
      by_cases hmn : m = n
      · rw [hmn] at hh ⊢
        rw [hashesAt_putChild_self] at hh
        rcases hrecS.2 q' h' hh with hold | hreach
        · cases q' with
          | nil =>
            rw [hashesAt_nil, markChild_hashes] at hold
            rcases List.mem_append.mp hold with hc | hc
            · left
              rwa [hashesAt_cons]
            · simp at hc
              subst hc
              exact Or.inr (.here (List.mem_cons_self _ _))
          | cons m2 q2 =>
            rw [hashesAt_markChild_cons] at hold
            left
            rwa [hashesAt_cons]
        · exact Or.inr (.step (List.mem_cons_self _ _) hr hreach)
      · rw [hashesAt_putChild_ne _ _ _ hmn] at hh
        exact Or.inl hh

theorem SoundAfter_tail {repo : Repo} {e : Entry} {es : List Entry}
    {d dst : DirData} (h : SoundAfter repo es d dst) :
    SoundAfter repo (e :: es) d dst := by
  refine ⟨fun q n o ho => ?_, fun q h' hh => ?_⟩
  · rcases h.1 q n o ho with hl | hr
    · exact Or.inl hl
    · exact Or.inr (reachBlob_tail hr)
  · rcases h.2 q h' hh with hl | hr
    · exact Or.inl hl
    · exact Or.inr (reachHash_tail hr)

theorem SoundAfter_compose {repo : Repo} {e : Entry} {es : List Entry}
    {d dmid dst : DirData}
    (h1 : SoundAfter repo (e :: es) d dmid)
    (h2 : SoundAfter repo es dmid dst) :
    SoundAfter repo (e :: es) d dst := by
  refine ⟨fun q n o ho => ?_, fun q h' hh => ?_⟩
  · rcases h2.1 q n o ho with hl | hr
    · exact h1.1 q n o hl
    · exact Or.inr (reachBlob_tail hr)
  · rcases h2.2 q h' hh with hl | hr
    · exact h1.2 q h' hl
    · exact Or.inr (reachHash_tail hr)

theorem foldEntries_sound (repo : Repo) (recur : List Entry → DirData → FoldRes)
    (hrec : ∀ es c, SoundAfter repo es c (recur es c).st) :
    ∀ es d, SoundAfter repo es d (foldEntries repo recur es d).st := by
  intro es
  induction es with
  | nil =>
    intro d
    exact ⟨fun q n o ho => Or.inl ho, fun q h hh => Or.inl hh⟩
  | cons e es ih =>
    intro d
    obtain ⟨n, o, k⟩ := e
    cases k with
    | other =>
      rw [foldEntries_other]
      exact SoundAfter_tail (ih d)
    | blob =>
      rw [foldEntries_blob]
      have hstep : SoundAfter repo (⟨n, o, .blob⟩ :: es) d (recordFile d n o) := by
        constructor
        · intro q n' o' ho
          cases q with
          | nil =>
            by_cases hn : n' = n
            · subst hn
              rw [filesAt_nil, fileOf_recordFile_self] at ho
              rcases (setInsert_fst_mem _ _ _).1 ho with hold | hnew
              · exact Or.inl hold
              · subst hnew
                exact Or.inr (.here (List.mem_cons_self _ _))
            · rw [filesAt_nil, fileOf_recordFile_ne _ _ hn] at ho
              exact Or.inl ho
          | cons m q' =>
            rw [filesAt_recordFile_cons] at ho
            exact Or.inl ho
        · intro q h' hh
          rw [hashesAt_recordFile] at hh
          exact Or.inl hh
      exact SoundAfter_compose hstep (ih _)
    | tree =>
      by_cases hm : o ∈ (childOf d n).hashes
      · rw [foldEntries_tree_mem _ _ _ hm]
        exact SoundAfter_tail (ih d)
      · cases hr : repo o with
        | error g =>
          rw [foldEntries_tree_new_git _ _ _ hm hr]
          exact sound_putChild_mark repo es d n o
        | ok obj =>
          cases obj with
          | nonTree =>
            rw [foldEntries_tree_new_nonTree _ _ _ hm hr]
            exact sound_putChild_mark repo es d n o
          | tree subEs =>
            cases hre : (recur subEs (markChild d n o)).err with
            | some f =>
              rw [foldEntries_tree_new_ok_err _ _ _ hm hr hre]
              exact sound_putChild_step hr (hrec subEs (markChild d n o))
            | none =>
              rw [foldEntries_tree_new_ok_none _ _ _ hm hr hre]
              exact SoundAfter_compose
                (sound_putChild_step hr (hrec subEs (markChild d n o))) (ih _)

theorem update_for_tree_sound (repo : Repo) :
    ∀ fuel es d, SoundAfter repo es d (update_for_tree repo fuel es d).st := by
  intro fuel
  induction fuel with
  | zero =>
    intro es d
    exact ⟨fun q n o ho => Or.inl ho, fun q h hh => Or.inl hh⟩
  | succ fuel ih => exact foldEntries_sound repo _ (fun es c => ih es c)

theorem update_for_tree_folded (repo : Repo) :
    ∀ fuel es d pend, Folded repo d pend →
      (update_for_tree repo fuel es d).err = none →
      FoldedAfter repo es d (update_for_tree repo fuel es d).st pend := by
  intro fuel
  induction fuel with
  | zero =>
    intro es d pend _ herr
    exact absurd herr (by simp [update_for_tree])
  | succ fuel ih =>
    intro es d pend hf herr
    exact foldEntries_folded repo (update_for_tree repo fuel)
      (fun es c => update_for_tree_mono repo fuel es c)
      (fun es c => update_for_tree_st_hashes repo fuel es c)
      (fun es c pend' hf' herr' => ih es c pend' hf' herr') es d pend hf herr

/-- Extensional characterisation of the cache after a successful commit
loop: the recorded blob set of every `(path, name)` and the recorded tree
set of every path are exactly the union, over the folded root snapshots,
of the content reachable from them — independent of any ordering. -/
theorem run_fold_char (repo : Repo) (fuel : Nat) :
    ∀ ts d, Folded repo d none → (run_fold repo fuel ts d).err = none →
      Folded repo (run_fold repo fuel ts d).st none ∧
      (∀ q n o, o ∈ filesAt (run_fold repo fuel ts d).st q n ↔
        o ∈ filesAt d q n ∨ ∃ t ∈ ts, ReachBlob repo t q n o) ∧
      (∀ q h, h ∈ hashesAt (run_fold repo fuel ts d).st q ↔
        h ∈ hashesAt d q ∨ ∃ t ∈ ts, ReachHash repo t q h) := by
  intro ts
  induction ts with
  | nil =>
    intro d hf herr
    refine ⟨hf, fun q n o => ?_, fun q h => ?_⟩ <;> simp [run_fold]
  | cons t ts ih =>
    intro d hf herr
    cases he : (update_for_tree repo fuel t d).err with
    | some f =>
      rw [run_fold_cons_err ts he] at herr
      exact absurd herr (by simp)
    | none =>
      rw [run_fold_cons_ok ts he] at herr ⊢
      obtain ⟨A1, B1, C1, _⟩ := update_for_tree_folded repo fuel t d none hf he
      have hS := update_for_tree_sound repo fuel t d
      have hM := update_for_tree_mono repo fuel t d
      obtain ⟨Cf, Fs, Hs⟩ := ih (update_for_tree repo fuel t d).st C1 herr
      have hMrest := run_fold_mono repo fuel ts (update_for_tree repo fuel t d).st
      refine ⟨Cf, fun q n o => ?_, fun q h => ?_⟩
      · constructor
        · intro ho
          rcases (Fs q n o).1 ho with hmid | ⟨t', ht', hr⟩
          · rcases hS.1 q n o hmid with hd | hr
            · exact Or.inl hd
            · exact Or.inr ⟨t, List.mem_cons_self _ _, hr⟩
          · exact Or.inr ⟨t', List.mem_cons_of_mem _ ht', hr⟩
        · intro hcase
          rcases hcase with hd | ⟨t', ht', hr⟩
          · exact (Fs q n o).2 (Or.inl (hM.2 q n o hd))
          · rcases List.mem_cons.mp ht' with rfl | htl
            · exact (Fs q n o).2 (Or.inl (A1 q n o hr))
            · exact (Fs q n o).2 (Or.inr ⟨t', htl, hr⟩)
      · constructor
        · intro hh
          rcases (Hs q h).1 hh with hmid | ⟨t', ht', hr⟩
          · rcases hS.2 q h hmid with hd | hr
            · exact Or.inl hd
            · exact Or.inr ⟨t, List.mem_cons_self _ _, hr⟩
          · exact Or.inr ⟨t', List.mem_cons_of_mem _ ht', hr⟩
        · intro hcase
          rcases hcase with hd | ⟨t', ht', hr⟩
          · exact (Hs q h).2 (Or.inl (hM.1 q h hd))
          · rcases List.mem_cons.mp ht' with rfl | htl
            · exact (Hs q h).2 (Or.inl (B1 q h hr))
            · exact (Hs q h).2 (Or.inr ⟨t', htl, hr⟩)

/-- The previous characterisation, from the empty root record `run`
starts with. -/
theorem run_fold_new_char (repo : Repo) (fuel : Nat) (ts : List (List Entry))
    (herr : (run_fold repo fuel ts DirData.new).err = none) :
    (∀ q n o, o ∈ filesAt (run_fold repo fuel ts DirData.new).st q n ↔
      ∃ t ∈ ts, ReachBlob repo t q n o) ∧
    (∀ q h, h ∈ hashesAt (run_fold repo fuel ts DirData.new).st q ↔
      ∃ t ∈ ts, ReachHash repo t q h) := by
  obtain ⟨_, Fs, Hs⟩ := run_fold_char repo fuel ts DirData.new
    (Folded_new repo none) herr
  constructor
  · intro q n o
    rw [Fs q n o, filesAt_new]
    simp
  · intro q h
    rw [Hs q h, hashesAt_new]
    simp

/-! ### Well-formedness of the cache

Anything `run` builds has duplicate-free keys, duplicate-free and
nonempty per-file oid sets, and every non-root record carries at least
one tree oid (it is marked before it is descended into). -/

inductive WFD : DirData → Prop where
  | mk : ∀ (hs : List Oid) (fs : List (String × List Oid))
      (ds : List (String × DirData)),
      (fs.map Prod.fst).Nodup →
      (ds.map Prod.fst).Nodup →
      (∀ p ∈ fs, p.2 ≠ [] ∧ p.2.Nodup) →
      (∀ p ∈ ds, p.2.hashes ≠ []) →
      (∀ p ∈ ds, WFD p.2) →
      WFD (.mk hs fs ds)

theorem WFD.files_keys_nodup {d : DirData} (h : WFD d) :
    (d.files.map Prod.fst).Nodup := by
  cases h with
  | mk hs fs ds h1 h2 h3 h4 h5 => exact h1

theorem WFD.dirs_keys_nodup {d : DirData} (h : WFD d) :
    (d.dirs.map Prod.fst).Nodup := by
  cases h with
  | mk hs fs ds h1 h2 h3 h4 h5 => exact h2

theorem WFD.files_vals {d : DirData} (h : WFD d) :
    ∀ p ∈ d.files, p.2 ≠ [] ∧ p.2.Nodup := by
  cases h with
  | mk hs fs ds h1 h2 h3 h4 h5 => exact h3

theorem WFD.dirs_vals_hashes {d : DirData} (h : WFD d) :
    ∀ p ∈ d.dirs, p.2.hashes ≠ [] := by
  cases h with
  | mk hs fs ds h1 h2 h3 h4 h5 => exact h4

theorem WFD.dirs_vals_wfd {d : DirData} (h : WFD d) :
    ∀ p ∈ d.dirs, WFD p.2 := by
  cases h with
  | mk hs fs ds h1 h2 h3 h4 h5 => exact h5

theorem WFD_new : WFD DirData.new := by
  refine WFD.mk [] [] [] ?_ ?_ ?_ ?_ ?_ <;> simp

theorem lookupA_some_mem {α : Type} {l : List (String × α)} {k : String} {v : α}
    (h : lookupA l k = some v) : (k, v) ∈ l := by
  induction l with
  | nil => simp [lookupA] at h
  | cons p t ih =>
    obtain ⟨k0, w⟩ := p
    by_cases hp : k0 = k
    · subst hp
      simp [lookupA] at h
      simp [h]
    · simp [lookupA, hp] at h
      exact List.mem_cons_of_mem _ (ih h)

theorem WFD_childOf {d : DirData} (h : WFD d) (n : String) : WFD (childOf d n) := by
  cases hc : lookupA d.dirs n with
  | some c =>
    have := h.dirs_vals_wfd (n, c) (lookupA_some_mem hc)
    simpa [childOf, hc] using this
  | none => simpa [childOf, hc] using WFD_new

theorem setA_mem_cases {α : Type} {l : List (String × α)} {k : String} {v : α}
    {p : String × α} (h : p ∈ setA l k v) : p ∈ l ∨ p = (k, v) := by
  induction l with
  | nil => simp [setA] at h; simp [h]
  | cons hd t ih =>
    obtain ⟨k0, w⟩ := hd
    by_cases hp : k0 = k
    · subst hp
      simp [setA] at h
      rcases h with rfl | hm
      · exact Or.inr rfl
      · exact Or.inl (List.mem_cons_of_mem _ hm)
    · simp [setA, hp] at h
      rcases h with rfl | hm
      · exact Or.inl (List.mem_cons_self _ _)
      · rcases ih hm with hl | hr
        · exact Or.inl (List.mem_cons_of_mem _ hl)
        · exact Or.inr hr

theorem keys_setA_nodup {α : Type} {l : List (String × α)} (k : String) (v : α)
    (h : (l.map Prod.fst).Nodup) : ((setA l k v).map Prod.fst).Nodup := by
  cases hs : lookupA l k with
  | some w => rwa [keys_setA_of_lookup_some v (by simp [hs])]
  | none =>
    rw [setA_lookup_none v hs]
    have hk : k ∉ l.map Prod.fst := (lookupA_eq_none_iff l k).mp hs
    simp [List.nodup_append, h, hk]

theorem WFD_recordFile {d : DirData} (h : WFD d) (n : String) (o : Oid) :
    WFD (recordFile d n o) := by
  have hfiles : (recordFile d n o).files = setA d.files n (setInsert (fileOf d n) o).1 := by
    unfold recordFile
    rw [mk_files, setA_gmocw_snd, gmocw_files_fst]
  have hdirs : (recordFile d n o).dirs = d.dirs := rfl
  have hval : (setInsert (fileOf d n) o).1 ≠ [] ∧ (setInsert (fileOf d n) o).1.Nodup := by
    constructor
    · intro hnil
      have : o ∈ (setInsert (fileOf d n) o).1 := (setInsert_fst_mem _ _ _).2 (Or.inr rfl)
      rw [hnil] at this
      exact absurd this (List.not_mem_nil o)
    · refine setInsert_nodup o ?_
      cases hc : lookupA d.files n with
      | some v =>
        have := h.files_vals (n, v) (lookupA_some_mem hc)
        simpa [fileOf, hc] using this.2
      | none => simp [fileOf, hc]
  cases hd : recordFile d n o with
  | mk hs2 fs2 ds2 =>
    have hfs2 : fs2 = setA d.files n (setInsert (fileOf d n) o).1 := by
      rw [← hfiles, hd, mk_files]
    have hds2 : ds2 = d.dirs := by rw [← hdirs, hd, mk_dirs]
    subst hfs2 hds2
    refine WFD.mk _ _ _ ?_ h.dirs_keys_nodup ?_ h.dirs_vals_hashes h.dirs_vals_wfd
    · exact keys_setA_nodup n _ h.files_keys_nodup
    · intro p hp
      rcases setA_mem_cases hp with hl | rfl
      · exact h.files_vals p hl
      · exact hval

theorem WFD_putChild {d : DirData} (h : WFD d) (n : String) {c : DirData}
    (hc : WFD c) (hch : c.hashes ≠ []) : WFD (putChild d n c) := by
  show WFD (DirData.mk d.hashes d.files (setA d.dirs n c))
  refine WFD.mk _ _ _ h.files_keys_nodup ?_ h.files_vals ?_ ?_
  · exact keys_setA_nodup n _ h.dirs_keys_nodup
  · intro p hp
    rcases setA_mem_cases hp with hl | rfl
    · exact h.dirs_vals_hashes p hl
    · exact hch
  · intro p hp
    rcases setA_mem_cases hp with hl | rfl
    · exact h.dirs_vals_wfd p hl
    · exact hc

theorem WFD_markChild {d : DirData} (h : WFD d) (n : String) (o : Oid) :
    WFD (markChild d n o) := by
  have hcw := WFD_childOf h n
  cases hcc : childOf d n with
  | mk hs fs ds =>
    rw [hcc] at hcw
    show WFD (DirData.mk ((childOf d n).hashes ++ [o]) (childOf d n).files
      (childOf d n).dirs)
    rw [hcc]
    cases hcw with
    | mk _ _ _ h1 h2 h3 h4 h5 => exact WFD.mk _ _ _ h1 h2 h3 h4 h5

theorem markChild_hashes_ne_nil (d : DirData) (n : String) (o : Oid) :
    (markChild d n o).hashes ≠ [] := by
  rw [markChild_hashes]
  simp

theorem foldEntries_wfd (repo : Repo) (recur : List Entry → DirData → FoldRes)
    (hwf : ∀ es c, WFD c → WFD (recur es c).st)
    (hhash : ∀ es c, (recur es c).st.hashes = c.hashes) :
    ∀ es d, WFD d → WFD (foldEntries repo recur es d).st := by
  intro es
  induction es with
  | nil => intro d h; exact h
  | cons e es ih =>
    intro d h
    obtain ⟨n, o, k⟩ := e
    cases k with
    | other => rw [foldEntries_other]; exact ih d h
    | blob => rw [foldEntries_blob]; exact ih _ (WFD_recordFile h n o)
    | tree =>
      by_cases hm : o ∈ (childOf d n).hashes
      · rw [foldEntries_tree_mem _ _ _ hm]; exact ih d h
      · cases hr : repo o with
        | error g =>
          rw [foldEntries_tree_new_git _ _ _ hm hr]
          exact WFD_putChild h n (WFD_markChild h n o) (markChild_hashes_ne_nil d n o)
        | ok obj =>
          cases obj with
          | nonTree =>
            rw [foldEntries_tree_new_nonTree _ _ _ hm hr]
            exact WFD_putChild h n (WFD_markChild h n o) (markChild_hashes_ne_nil d n o)
          | tree subEs =>
            have hwfr : WFD (recur subEs (markChild d n o)).st :=
              hwf _ _ (WFD_markChild h n o)
            have hner : (recur subEs (markChild d n o)).st.hashes ≠ [] := by
              rw [hhash]
              exact markChild_hashes_ne_nil d n o
            cases hre : (recur subEs (markChild d n o)).err with
            | some f =>
              rw [foldEntries_tree_new_ok_err _ _ _ hm hr hre]
              exact WFD_putChild h n hwfr hner
            | none =>
              rw [foldEntries_tree_new_ok_none _ _ _ hm hr hre]
              exact ih _ (WFD_putChild h n hwfr hner)

theorem update_for_tree_wfd (repo : Repo) :
    ∀ fuel es d, WFD d → WFD (update_for_tree repo fuel es d).st := by
  intro fuel
  induction fuel with
  | zero => intro es d h; exact h
  | succ fuel ih =>
    exact foldEntries_wfd repo _ (fun es c => ih es c)
      (fun es c => update_for_tree_st_hashes repo fuel es c)

theorem run_fold_wfd (repo : Repo) (fuel : Nat) :
    ∀ ts d, WFD d → WFD (run_fold repo fuel ts d).st := by
  intro ts
  induction ts with
  | nil => intro d h; exact h
  | cons t ts ih =>
    intro d h
    cases he : (update_for_tree repo fuel t d).err with
    | some f =>
      rw [run_fold_cons_err ts he]
      exact update_for_tree_wfd repo fuel t d h
    | none =>
      rw [run_fold_cons_ok ts he]
      exact ih _ (update_for_tree_wfd repo fuel t d h)

/-! ### From extensional equality of caches to equal reports -/

theorem lookupA_cons_self {α : Type} (k : String) (v : α) (t : List (String × α)) :
    lookupA ((k, v) :: t) k = some v := by
  simp [lookupA]

theorem lookupA_append_left {α : Type} {a : List (String × α)} {k : String}
    {v : α} (l' : List (String × α)) (h : lookupA a k = some v) :
    lookupA (a ++ l') k = some v := by
  induction a with
  | nil => simp [lookupA] at h
  | cons p t ih =>
    obtain ⟨k0, w⟩ := p
    by_cases hp : k0 = k
    · subst hp
      simp [lookupA] at h ⊢
      exact h
    · simp [lookupA, hp] at h ⊢
      exact ih h

theorem lookupA_some_decomp {α : Type} {l : List (String × α)} {k : String}
    {v : α} (h : lookupA l k = some v) :
    ∃ a b, l = a ++ (k, v) :: b ∧ lookupA a k = none := by
  induction l with
  | nil => simp [lookupA] at h
  | cons p t ih =>
    obtain ⟨k0, w⟩ := p
    by_cases hp : k0 = k
    · subst hp
      simp [lookupA] at h
      subst h
      exact ⟨[], t, rfl, rfl⟩
    · simp [lookupA, hp] at h
      obtain ⟨a, b, rfl, ha⟩ := ih h
      exact ⟨(k0, w) :: a, b, rfl, by simp [lookupA, hp, ha]⟩

theorem assoc_flatten_perm {α β : Type} (F : String → α → List β) :
    ∀ (l₁ l₂ : List (String × α)),
    (l₁.map Prod.fst).Nodup → (l₂.map Prod.fst).Nodup →
    (∀ k, (lookupA l₁ k).isSome ↔ (lookupA l₂ k).isSome) →
    (∀ k v₁ v₂, lookupA l₁ k = some v₁ → lookupA l₂ k = some v₂ →
      (F k v₁).Perm (F k v₂)) →
    ((l₁.map (fun p => F p.1 p.2)).flatten).Perm
      ((l₂.map (fun p => F p.1 p.2)).flatten) := by
  intro l₁
  induction l₁ with
  | nil =>
    intro l₂ _ _ hsome _
    cases l₂ with
    | nil => exact List.Perm.refl _
    | cons p t =>
      exfalso
      have h2 : (lookupA ((p.1, p.2) :: t) p.1).isSome := by
        rw [lookupA_cons_self]
        rfl
      have h1 : (lookupA ([] : List (String × α)) p.1).isSome := by
        exact (hsome p.1).2 h2
      simp [lookupA] at h1
  | cons p t₁ ih =>
    intro l₂ hnd₁ hnd₂ hsome hval
    obtain ⟨k, v⟩ := p
    have hl1 : lookupA ((k, v) :: t₁) k = some v := lookupA_cons_self k v t₁
    have hv2 : ∃ v₂, lookupA l₂ k = some v₂ := by
      have := (hsome k).1 (by rw [hl1]; rfl)
      cases hll : lookupA l₂ k with
      | some w => exact ⟨w, rfl⟩
      | none => rw [hll] at this; simp at this
    obtain ⟨v₂, hv₂⟩ := hv2
    obtain ⟨a, b, rfl, ha⟩ := lookupA_some_decomp hv₂
    -- facts about the keys
    have hknd₁ : k ∉ t₁.map Prod.fst ∧ (t₁.map Prod.fst).Nodup := by
      simpa using hnd₁
    have hkeys₂ : (a.map Prod.fst ++ k :: b.map Prod.fst).Nodup := by
      simpa using hnd₂
    have hka : k ∉ a.map Prod.fst := by
      intro hk
      rcases List.nodup_append.mp hkeys₂ with ⟨_, _, hdisj⟩
      exact hdisj hk (List.mem_cons_self _ _)
    have hkb : k ∉ b.map Prod.fst := by
      rcases List.nodup_append.mp hkeys₂ with ⟨_, hnb, _⟩
      exact (List.nodup_cons.mp hnb).1
    have hndab : ((a ++ b).map Prod.fst).Nodup := by
      rw [List.map_append]
      rcases List.nodup_append.mp hkeys₂ with ⟨hna, hnb, hdisj⟩
      rw [List.nodup_append]
      exact ⟨hna, (List.nodup_cons.mp hnb).2,
        fun x hx1 hx2 => hdisj hx1 (List.mem_cons_of_mem _ hx2)⟩
    -- lookups in the reduced lists agree with the original ones
    have htr : ∀ k', k' ≠ k → lookupA (a ++ b) k' = lookupA (a ++ (k, v₂) :: b) k' := by
      intro k' hk'
      cases hla : lookupA a k' with
      | some w =>
        rw [lookupA_append_left _ hla, lookupA_append_left _ hla]
      | none =>
        rw [lookupA_append_right _ _ _ hla, lookupA_append_right _ _ _ hla]
        simp [lookupA, Ne.symm hk']
    have htl : ∀ k', k' ≠ k → lookupA t₁ k' = lookupA ((k, v) :: t₁) k' := by
      intro k' hk'
      simp [lookupA, Ne.symm hk']
    have hnone₁ : lookupA t₁ k = none :=
      (lookupA_eq_none_iff t₁ k).2 hknd₁.1
    have hnoneab : lookupA (a ++ b) k = none := by
      refine (lookupA_eq_none_iff _ k).2 ?_
      rw [List.map_append]
      intro hk
      rcases List.mem_append.mp hk with h | h
      · exact hka h
      · exact hkb h
    -- inductive hypothesis on the tails
    have hperm_tail : ((t₁.map (fun p => F p.1 p.2)).flatten).Perm
        (((a ++ b).map (fun p => F p.1 p.2)).flatten) := by
      refine ih (a ++ b) hknd₁.2 hndab ?_ ?_
      · intro k'
        by_cases hk' : k' = k
        · subst hk'
          rw [hnone₁, hnoneab]
        · rw [htl k' hk', htr k' hk']
          exact hsome k'
      · intro k' w₁ w₂ hw₁ hw₂
        by_cases hk' : k' = k
        · subst hk'
          rw [hnone₁] at hw₁
          exact absurd hw₁ (by simp)
        · refine hval k' w₁ w₂ ?_ ?_
          · rw [← htl k' hk']
            exact hw₁
          · rw [← htr k' hk']
            exact hw₂
    -- assemble
    have hhead : (F k v).Perm (F k v₂) := hval k v v₂ hl1 hv₂
    have hmid : ((a ++ (k, v₂) :: b).map (fun p => F p.1 p.2)).flatten.Perm
        (F k v₂ ++ ((a ++ b).map (fun p => F p.1 p.2)).flatten) := by
      have hp : (a ++ (k, v₂) :: b).Perm ((k, v₂) :: (a ++ b)) := List.perm_middle
      have := (hp.map (fun p => F p.1 p.2)).flatten
      simpa using this
    refine List.Perm.trans ?_ hmid.symm
    have hflat : (((k, v) :: t₁).map (fun p => F p.1 p.2)).flatten =
        F k v ++ (t₁.map (fun p => F p.1 p.2)).flatten := by simp
    rw [hflat]
    exact hhead.append hperm_tail

theorem get_all_files_mk (hs : List Oid) (fs : List (String × List Oid))
    (ds : List (String × DirData)) (path : String) :
    get_all_files (.mk hs fs ds) path =
      fs.map (fun p => (join path p.1, p.2.length)) ++ get_all_files_list ds path := by
  rw [get_all_files]

theorem get_all_files_list_eq (ds : List (String × DirData)) (path : String) :
    get_all_files_list ds path =
      (ds.map (fun p => get_all_files p.2 (join path p.1))).flatten := by
  induction ds with
  | nil => rw [get_all_files_list]; rfl
  | cons p rest ih =>
    obtain ⟨n, sub⟩ := p
    rw [get_all_files_list, ih]
    rfl

theorem map_singleton_flatten {α β : Type} (l : List α) (g : α → β) :
    (l.map (fun p => [g p])).flatten = l.map g := by
  induction l with
  | nil => rfl
  | cons x t ih => simp [ih]

theorem lookup_dirs_isSome_iff {d : DirData} (h : WFD d) (k : String) :
    (lookupA d.dirs k).isSome ↔ hashesAt d [k] ≠ [] := by
  cases hc : lookupA d.dirs k with
  | some c =>
    have hch : childOf d k = c := by simp [childOf, hc]
    have hne := h.dirs_vals_hashes (k, c) (lookupA_some_mem hc)
    simp only [Option.isSome_some, true_iff]
    rw [hashesAt_cons, hch, hashesAt_nil]
    exact hne
  | none =>
    have hch : childOf d k = DirData.new := by simp [childOf, hc]
    simp only [Option.isSome_none, false_iff]
    rw [hashesAt_cons, hch, hashesAt_new]
    simp

theorem lookup_files_isSome_iff {d : DirData} (h : WFD d) (k : String) :
    (lookupA d.files k).isSome ↔ filesAt d [] k ≠ [] := by
  cases hc : lookupA d.files k with
  | some v =>
    have hne := h.files_vals (k, v) (lookupA_some_mem hc)
    simp only [Option.isSome_some, true_iff]
    rw [filesAt_nil]
    simp [fileOf, hc]
    exact hne.1
  | none =>
    simp only [Option.isSome_none, false_iff]
    rw [filesAt_nil]
    simp [fileOf, hc]

theorem ne_nil_iff_of_mem_iff {α : Type} {l₁ l₂ : List α}
    (h : ∀ x, x ∈ l₁ ↔ x ∈ l₂) : l₁ ≠ [] ↔ l₂ ≠ [] := by
  rw [ne_eq, ne_eq, List.eq_nil_iff_forall_not_mem, List.eq_nil_iff_forall_not_mem]
  constructor
  · intro h1 h2
    exact h1 (fun a ha => h2 a ((h a).1 ha))
  · intro h1 h2
    exact h1 (fun a ha => h2 a ((h a).2 ha))

theorem length_eq_of_nodup_of_mem_iff {l₁ l₂ : List Oid} (h₁ : l₁.Nodup)
    (h₂ : l₂.Nodup) (h : ∀ x, x ∈ l₁ ↔ x ∈ l₂) : l₁.length = l₂.length := by
  have hf : l₁.toFinset = l₂.toFinset := by
    ext x
    simp [List.mem_toFinset, h x]
  rw [← List.toFinset_card_of_nodup h₁, ← List.toFinset_card_of_nodup h₂, hf]

theorem get_all_files_perm_aux :
    ∀ (sz : Nat) (d₁ : DirData), sizeOf d₁ ≤ sz → ∀ (d₂ : DirData),
    WFD d₁ → WFD d₂ →
    (∀ q x, x ∈ hashesAt d₁ q ↔ x ∈ hashesAt d₂ q) →
    (∀ q n o, o ∈ filesAt d₁ q n ↔ o ∈ filesAt d₂ q n) →
    ∀ path, (get_all_files d₁ path).Perm (get_all_files d₂ path) := by
  intro sz
  induction sz with
  | zero =>
    intro d₁ hsz
    exfalso
    cases d₁ with
    | mk hs fs ds => simp at hsz
  | succ sz ih =>
    intro d₁ hsz d₂ hw₁ hw₂ hH hF path
    obtain ⟨hs₁, fs₁, ds₁⟩ := d₁
    obtain ⟨hs₂, fs₂, ds₂⟩ := d₂
    rw [get_all_files_mk, get_all_files_mk]
    refine List.Perm.append ?_ ?_
    · -- the file rows of this record
      rw [← map_singleton_flatten fs₁ (fun p => (join path p.1, p.2.length)),
        ← map_singleton_flatten fs₂ (fun p => (join path p.1, p.2.length))]
      have hmain := assoc_flatten_perm
        (fun k v => [(join path k, (v : List Oid).length)]) fs₁ fs₂
        hw₁.files_keys_nodup hw₂.files_keys_nodup ?_ ?_
      · exact hmain
      · intro k
        have e₁ : lookupA (DirData.mk hs₁ fs₁ ds₁).files k = lookupA fs₁ k := rfl
        have e₂ : lookupA (DirData.mk hs₂ fs₂ ds₂).files k = lookupA fs₂ k := rfl
        rw [← e₁, ← e₂, lookup_files_isSome_iff hw₁, lookup_files_isSome_iff hw₂]
        exact ne_nil_iff_of_mem_iff (fun x => hF [] k x)
      · intro k v₁ v₂ hv₁ hv₂
        have hlen : v₁.length = v₂.length := by
          refine length_eq_of_nodup_of_mem_iff ?_ ?_ ?_
          · exact (hw₁.files_vals (k, v₁) (lookupA_some_mem hv₁)).2
          · exact (hw₂.files_vals (k, v₂) (lookupA_some_mem hv₂)).2
          · intro x
            have hx₁ : filesAt (DirData.mk hs₁ fs₁ ds₁) [] k = v₁ := by
              rw [filesAt_nil]
              simp [fileOf, mk_files, hv₁]
            have hx₂ : filesAt (DirData.mk hs₂ fs₂ ds₂) [] k = v₂ := by
              rw [filesAt_nil]
              simp [fileOf, mk_files, hv₂]
            rw [← hx₁, ← hx₂]
            exact hF [] k x
        simp only [hlen]
        exact List.Perm.refl _
    · -- the rows of the subdirectories
      rw [get_all_files_list_eq, get_all_files_list_eq]
      refine assoc_flatten_perm (fun k c => get_all_files c (join path k)) ds₁ ds₂
        hw₁.dirs_keys_nodup hw₂.dirs_keys_nodup ?_ ?_
      · intro k
        have e₁ : lookupA (DirData.mk hs₁ fs₁ ds₁).dirs k = lookupA ds₁ k := rfl
        have e₂ : lookupA (DirData.mk hs₂ fs₂ ds₂).dirs k = lookupA ds₂ k := rfl
        rw [← e₁, ← e₂, lookup_dirs_isSome_iff hw₁, lookup_dirs_isSome_iff hw₂]
        exact ne_nil_iff_of_mem_iff (fun x => hH [k] x)
      · intro k c₁ c₂ hc₁ hc₂
        have hch₁ : childOf (DirData.mk hs₁ fs₁ ds₁) k = c₁ := by
          simp [childOf, mk_dirs, hc₁]
        have hch₂ : childOf (DirData.mk hs₂ fs₂ ds₂) k = c₂ := by
          simp [childOf, mk_dirs, hc₂]
        have hsize : sizeOf c₁ ≤ sz := by
          have h1 : sizeOf (k, c₁) < sizeOf ds₁ :=
            List.sizeOf_lt_of_mem (lookupA_some_mem hc₁)
          have h2 : sizeOf (k, c₁) = 1 + sizeOf k + sizeOf c₁ := rfl
          have h3 : sizeOf (DirData.mk hs₁ fs₁ ds₁) =
              1 + sizeOf hs₁ + sizeOf fs₁ + sizeOf ds₁ := by simp
          omega
        refine ih c₁ hsize c₂ ?_ ?_ ?_ ?_ (join path k)
        · exact hw₁.dirs_vals_wfd (k, c₁) (lookupA_some_mem hc₁)
        · exact hw₂.dirs_vals_wfd (k, c₂) (lookupA_some_mem hc₂)
        · intro q x
          have r₁ : hashesAt c₁ q = hashesAt (DirData.mk hs₁ fs₁ ds₁) (k :: q) := by
            rw [hashesAt_cons, hch₁]
          have r₂ : hashesAt c₂ q = hashesAt (DirData.mk hs₂ fs₂ ds₂) (k :: q) := by
            rw [hashesAt_cons, hch₂]
          rw [r₁, r₂]
          exact hH (k :: q) x
        · intro q n o
          have r₁ : filesAt c₁ q n = filesAt (DirData.mk hs₁ fs₁ ds₁) (k :: q) n := by
            rw [filesAt_cons, hch₁]
          have r₂ : filesAt c₂ q n = filesAt (DirData.mk hs₂ fs₂ ds₂) (k :: q) n := by
            rw [filesAt_cons, hch₂]
          rw [r₁, r₂]
          exact hF (k :: q) n o

theorem get_all_files_perm_of_equiv {d₁ d₂ : DirData} (hw₁ : WFD d₁)
    (hw₂ : WFD d₂)
    (hH : ∀ q x, x ∈ hashesAt d₁ q ↔ x ∈ hashesAt d₂ q)
    (hF : ∀ q n o, o ∈ filesAt d₁ q n ↔ o ∈ filesAt d₂ q n) (path : String) :
    (get_all_files d₁ path).Perm (get_all_files d₂ path) :=
  get_all_files_perm_aux (sizeOf d₁) d₁ le_rfl d₂ hw₁ hw₂ hH hF path

/-! ### The sort at the end of `run` -/

instance : IsTotal (String × Nat) rowLE := by
  constructor
  intro a b
  rcases lt_trichotomy a.1 b.1 with hlt | heq | hgt
  · exact Or.inl (Or.inl hlt)
  · rcases Nat.le_total a.2 b.2 with h2 | h2
    · exact Or.inl (Or.inr ⟨heq, h2⟩)
    · exact Or.inr (Or.inr ⟨heq.symm, h2⟩)
  · exact Or.inr (Or.inl hgt)

instance : IsTrans (String × Nat) rowLE := by
  constructor
  intro a b c hab hbc
  rcases hab with h1 | ⟨e1, l1⟩
  · rcases hbc with h2 | ⟨e2, l2⟩
    · exact Or.inl (h1.trans h2)
    · exact Or.inl (e2 ▸ h1)
  · rcases hbc with h2 | ⟨e2, l2⟩
    · exact Or.inl (e1 ▸ h2)
    · exact Or.inr ⟨e1.trans e2, l1.trans l2⟩

instance : IsAntisymm (String × Nat) rowLE := by
  constructor
  intro a b hab hba
  rcases hab with h1 | ⟨e1, l1⟩
  · rcases hba with h2 | ⟨e2, l2⟩
    · exact absurd (h1.trans h2) (lt_irrefl a.1)
    · exact absurd h1 (e2 ▸ lt_irrefl b.1)
  · rcases hba with h2 | ⟨e2, l2⟩
    · exact absurd h2 (e1 ▸ lt_irrefl a.1)
    · exact Prod.ext e1 (Nat.le_antisymm l1 l2)

theorem sortRows_sorted (l : List (String × Nat)) :
    List.Sorted rowLE (sortRows l) :=
  List.sorted_insertionSort rowLE l

theorem sortRows_perm (l : List (String × Nat)) : (sortRows l).Perm l :=
  List.perm_insertionSort rowLE l

/-- Sorting is a function of the multiset of rows alone: two row lists
that are permutations of each other sort to the same output. -/
theorem sortRows_eq_of_perm {l₁ l₂ : List (String × Nat)} (h : l₁.Perm l₂) :
    sortRows l₁ = sortRows l₂ :=
  List.eq_of_perm_of_sorted
    ((sortRows_perm l₁).trans (h.trans (sortRows_perm l₂).symm))
    (sortRows_sorted l₁) (sortRows_sorted l₂)

/-! ### Path algebra: iterated `join` is the `/`-joined segment list -/

theorem join_eq_append {base : String} (name : String) (h : base ≠ "") :
    join base name = base ++ "/" ++ name := by
  unfold join
  split
  · contradiction
  · rfl

theorem join_ne_empty_of_ne {base : String} (name : String) (h : base ≠ "") :
    join base name ≠ "" := by
  rw [join_eq_append name h]
  intro hc
  have := congrArg String.length hc
  simp [String.length_append] at this
  exact absurd this.1.2 (by decide)

theorem foldl_join_go (as : List String) :
    ∀ base, base ≠ "" →
      List.foldl join base as = String.intercalate.go base "/" as := by
  induction as with
  | nil => intro base _; rfl
  | cons a t ih =>
    intro base hb
    show List.foldl join (join base a) t = String.intercalate.go (base ++ "/" ++ a) "/" t
    rw [← join_eq_append a hb]
    exact ih (join base a) (join_ne_empty_of_ne a hb)

/-- For nonempty segment names, folding `join` over the segments starting
from the empty base produces exactly the `/`-separated concatenation of
the segments (in particular no leading separator). -/
theorem foldl_join_intercalate (segs : List String) (h0 : segs ≠ [])
    (hne : "" ∉ segs) :
    List.foldl join "" segs = String.intercalate "/" segs := by
  cases segs with
  | nil => exact absurd rfl h0
  | cons a t =>
    have ha : a ≠ "" := fun h => hne (h ▸ List.mem_cons_self a t)
    show List.foldl join (join "" a) t = String.intercalate "/" (a :: t)
    have hj : join "" a = a := rfl
    rw [hj]
    exact foldl_join_go t a ha

/-! ### Well-formedness consequences used by the counting claims -/

theorem WFD_nodeAt {d : DirData} (h : WFD d) :
    ∀ {q : List String} {c : DirData}, nodeAt d q = some c → WFD c := by
  intro q
  induction q generalizing d with
  | nil =>
    intro c hc
    rw [nodeAt] at hc
    cases hc
    exact h
  | cons k q ih =>
    intro c hc
    rw [nodeAt] at hc
    cases hl : lookupA d.dirs k with
    | some sub =>
      rw [hl] at hc
      exact ih (h.dirs_vals_wfd (k, sub) (lookupA_some_mem hl)) hc
    | none => rw [hl] at hc; cases hc

theorem filesAt_nodup {d : DirData} (h : WFD d) (q : List String) (n : String) :
    (filesAt d q n).Nodup := by
  rw [filesAt]
  cases hc : nodeAt d q with
  | none => simp
  | some c =>
    show ((lookupA c.files n).getD []).Nodup
    cases hl : lookupA c.files n with
    | none => simp
    | some v =>
      exact ((WFD_nodeAt h hc).files_vals (n, v) (lookupA_some_mem hl)).2

/-! ### A fold whose entries were all seen already is a strict no-op -/

theorem recordFile_mem_self {d : DirData} {n : String} {o : Oid}
    (h : o ∈ fileOf d n) : recordFile d n o = d := by
  have hlk : lookupA d.files n = some (fileOf d n) := by
    cases hc : lookupA d.files n with
    | some v => simp [fileOf, hc]
    | none =>
      exfalso
      rw [fileOf, hc] at h
      exact absurd h (List.not_mem_nil o)
  unfold recordFile
  simp only [setA_gmocw_snd, gmocw_files_fst]
  rw [setInsert_mem h, setA_lookup_self hlk, DirData.eta]

theorem foldEntries_noop (repo : Repo) (recur : List Entry → DirData → FoldRes) :
    ∀ es d,
    (∀ e ∈ es, (e.kind = .tree → e.oid ∈ (childOf d e.name).hashes) ∧
      (e.kind = .blob → e.oid ∈ fileOf d e.name)) →
    foldEntries repo recur es d = ⟨d, [], none⟩ := by
  intro es
  induction es with
  | nil => intro d _; rfl
  | cons e es ih =>
    intro d hall
    obtain ⟨n, o, k⟩ := e
    cases k with
    | tree =>
      have hm : o ∈ (childOf d n).hashes :=
        (hall _ (List.mem_cons_self _ _)).1 rfl
      rw [foldEntries_tree_mem _ _ _ hm]
      exact ih d (fun e he => hall e (List.mem_cons_of_mem _ he))
    | blob =>
      have hm : o ∈ fileOf d n := (hall _ (List.mem_cons_self _ _)).2 rfl
      rw [foldEntries_blob, recordFile_mem_self hm]
      exact ih d (fun e he => hall e (List.mem_cons_of_mem _ he))
    | other =>
      rw [foldEntries_other]
      exact ih d (fun e he => hall e (List.mem_cons_of_mem _ he))

theorem update_for_tree_noop (repo : Repo) {fuel : Nat} (hf : 0 < fuel)
    {es : List Entry} {d : DirData}
    (hall : ∀ e ∈ es, (e.kind = .tree → e.oid ∈ (childOf d e.name).hashes) ∧
      (e.kind = .blob → e.oid ∈ fileOf d e.name)) :
    update_for_tree repo fuel es d = ⟨d, [], none⟩ := by
  cases fuel with
  | zero => exact absurd hf (by simp)
  | succ fuel => exact foldEntries_noop repo _ es d hall

/-! ### Splitting the commit loop -/

theorem run_fold_append_ok (repo : Repo) (fuel : Nat) :
    ∀ (ts ts' : List (List Entry)) (d : DirData),
    (run_fold repo fuel ts d).err = none →
    run_fold repo fuel (ts ++ ts') d =
      ⟨(run_fold repo fuel ts' (run_fold repo fuel ts d).st).st,
       (run_fold repo fuel ts d).calls ++
         (run_fold repo fuel ts' (run_fold repo fuel ts d).st).calls,
       (run_fold repo fuel ts' (run_fold repo fuel ts d).st).err⟩ := by
  intro ts
  induction ts with
  | nil =>
    intro ts' d _
    show run_fold repo fuel ts' d = _
    simp [run_fold]
  | cons t ts ih =>
    intro ts' d herr
    cases he : (update_for_tree repo fuel t d).err with
    | some f =>
      rw [run_fold_cons_err ts he] at herr
      exact absurd herr (by simp)
    | none =>
      rw [run_fold_cons_ok ts he] at herr
      show run_fold repo fuel (t :: (ts ++ ts')) d = _
      rw [run_fold_cons_ok (ts ++ ts') he, run_fold_cons_ok ts he,
        ih ts' (update_for_tree repo fuel t d).st herr]
      simp

theorem mem_lookupA_of_nodup {α : Type} {l : List (String × α)}
    (hnd : (l.map Prod.fst).Nodup) {k : String} {v : α} (h : (k, v) ∈ l) :
    lookupA l k = some v := by
  induction l with
  | nil => exact absurd h (List.not_mem_nil _)
  | cons p t ih =>
    obtain ⟨k0, w⟩ := p
    rcases List.mem_cons.mp h with he | hm
    · injection he with h1 h2
      subst h1 h2
      exact lookupA_cons_self k v t
    · have hne : k0 ≠ k := by
        intro hk
        subst hk
        have : k0 ∈ t.map Prod.fst := List.mem_map.mpr ⟨(k0, v), hm, rfl⟩
        exact (List.nodup_cons.mp (by simpa using hnd)).1 this
      have := ih (List.nodup_cons.mp (by simpa using hnd)).2 hm
      simpa [lookupA, hne] using this

/-- Membership characterisation of the flattened rows: the fold of
`get_all_files` emits `(p, c)` exactly when some node of the tree holds a
file entry whose accumulated path is `p` and whose recorded-version count
is `c`. -/
theorem get_all_files_mem_aux :
    ∀ (sz : Nat) (d : DirData), sizeOf d ≤ sz → WFD d →
    ∀ (path p : String) (c : Nat),
    ((p, c) ∈ get_all_files d path ↔
      ∃ q n node hs, nodeAt d q = some node ∧ lookupA node.files n = some hs ∧
        p = List.foldl join path (q ++ [n]) ∧ c = hs.length) := by
  intro sz
  induction sz with
  | zero =>
    intro d hsz
    exfalso
    cases d with
    | mk hs fs ds => simp at hsz
  | succ sz ih =>
    intro d hsz hw path p c
    obtain ⟨hsd, fs, ds⟩ := d
    rw [get_all_files_mk, List.mem_append]
    constructor
    · intro hmem
      rcases hmem with hrow | hsub
      · obtain ⟨⟨k, v⟩, hkv, heq⟩ := List.mem_map.mp hrow
        injection heq with hp hc
        refine ⟨[], k, DirData.mk hsd fs ds, v, rfl, ?_, ?_, hc.symm⟩
        · exact mem_lookupA_of_nodup hw.files_keys_nodup hkv
        · exact hp.symm
      · rw [get_all_files_list_eq] at hsub
        obtain ⟨rows, hrows, hmemrows⟩ := List.mem_flatten.mp hsub
        obtain ⟨⟨k, sub⟩, hksub, heq⟩ := List.mem_map.mp hrows
        subst heq
        have hsize : sizeOf sub ≤ sz := by
          have h1 : sizeOf (k, sub) < sizeOf ds := List.sizeOf_lt_of_mem hksub
          have h2 : sizeOf (k, sub) = 1 + sizeOf k + sizeOf sub := rfl
          have h3 : sizeOf (DirData.mk hsd fs ds) =
              1 + sizeOf hsd + sizeOf fs + sizeOf ds := by simp
          omega
        have hwsub : WFD sub := hw.dirs_vals_wfd (k, sub) hksub
        obtain ⟨q', n, node, hs', hnode, hlk, hp, hc⟩ :=
          (ih sub hsize hwsub (join path k) p c).1 hmemrows
        refine ⟨k :: q', n, node, hs', ?_, hlk, ?_, hc⟩
        · rw [nodeAt, mem_lookupA_of_nodup hw.dirs_keys_nodup hksub]
          exact hnode
        · rw [hp]
          rfl
    · rintro ⟨q, n, node, hs', hnode, hlk, hp, hc⟩
      cases q with
      | nil =>
        rw [nodeAt] at hnode
        injection hnode with hnode
        subst hnode
        left
        refine List.mem_map.mpr ⟨(n, hs'), lookupA_some_mem hlk, ?_⟩
        rw [hp, hc]
        rfl
      | cons k q' =>
        rw [nodeAt] at hnode
        cases hlkd : lookupA (DirData.mk hsd fs ds).dirs k with
        | none => rw [hlkd] at hnode; cases hnode
        | some sub =>
          rw [hlkd] at hnode
          right
          rw [get_all_files_list_eq]
          have hksub : (k, sub) ∈ ds := lookupA_some_mem hlkd
          have hsize : sizeOf sub ≤ sz := by
            have h1 : sizeOf (k, sub) < sizeOf ds := List.sizeOf_lt_of_mem hksub
            have h2 : sizeOf (k, sub) = 1 + sizeOf k + sizeOf sub := rfl
            have h3 : sizeOf (DirData.mk hsd fs ds) =
                1 + sizeOf hsd + sizeOf fs + sizeOf ds := by simp
            omega
          have hwsub : WFD sub := hw.dirs_vals_wfd (k, sub) hksub
          refine List.mem_flatten.mpr
            ⟨get_all_files sub (join path k),
              List.mem_map.mpr ⟨(k, sub), hksub, rfl⟩, ?_⟩
          refine (ih sub hsize hwsub (join path k) p c).2
            ⟨q', n, node, hs', hnode, hlk, ?_, hc⟩
          rw [hp]
          rfl

theorem get_all_files_mem_iff {d : DirData} (hw : WFD d) (path p : String)
    (c : Nat) :
    (p, c) ∈ get_all_files d path ↔
      ∃ q n node hs, nodeAt d q = some node ∧ lookupA node.files n = some hs ∧
        p = List.foldl join path (q ++ [n]) ∧ c = hs.length :=
  get_all_files_mem_aux (sizeOf d) d le_rfl hw path p c

/-- One row per file entry: the flattened output has exactly as many rows
as the tree has file entries (directories contribute none). -/
theorem get_all_files_length_aux :
    ∀ (sz : Nat),
    (∀ d : DirData, sizeOf d ≤ sz → ∀ path,
      (get_all_files d path).length = numFiles d) ∧
    (∀ ds : List (String × DirData), sizeOf ds ≤ sz → ∀ path,
      (get_all_files_list ds path).length = numFilesList ds) := by
  intro sz
  induction sz with
  | zero =>
    constructor
    · intro d hsz
      exfalso
      cases d with
      | mk hs fs ds => simp at hsz
    · intro ds hsz
      exfalso
      cases ds with
      | nil => simp at hsz
      | cons p t => simp at hsz
  | succ sz ih =>
    constructor
    · intro d hsz path
      obtain ⟨hs, fs, ds⟩ := d
      rw [get_all_files_mk, numFiles]
      have hsize : sizeOf ds ≤ sz := by
        have h3 : sizeOf (DirData.mk hs fs ds) =
            1 + sizeOf hs + sizeOf fs + sizeOf ds := by simp
        omega
      rw [List.length_append, List.length_map, ih.2 ds hsize path]
    · intro ds hsz path
      cases ds with
      | nil => rfl
      | cons p t =>
        obtain ⟨n, sub⟩ := p
        rw [get_all_files_list, numFilesList]
        have hcons : sizeOf ((n, sub) :: t) = 1 + sizeOf (n, sub) + sizeOf t := by
          simp
        have hps : sizeOf (n, sub) = 1 + sizeOf n + sizeOf sub := rfl
        have hsub : sizeOf sub ≤ sz := by omega
        have ht : sizeOf t ≤ sz := by omega
        rw [List.length_append, ih.1 sub hsub (join path n), ih.2 t ht path]

theorem run_fold_append_err (repo : Repo) (fuel : Nat) :
    ∀ (ts ts' : List (List Entry)) (d : DirData) (f : Failure),
    (run_fold repo fuel ts d).err = some f →
    run_fold repo fuel (ts ++ ts') d = run_fold repo fuel ts d := by
  intro ts
  induction ts with
  | nil =>
    intro ts' d f herr
    simp [run_fold] at herr
  | cons t ts ih =>
    intro ts' d f herr
    cases he : (update_for_tree repo fuel t d).err with
    | some g =>
      rw [run_fold_cons_err ts he] at herr ⊢
      show run_fold repo fuel (t :: (ts ++ ts')) d = _
      rw [run_fold_cons_err (ts ++ ts') he]
    | none =>
      rw [run_fold_cons_ok ts he] at herr ⊢
      show run_fold repo fuel (t :: (ts ++ ts')) d = _
      rw [run_fold_cons_ok (ts ++ ts') he,
        ih ts' (update_for_tree repo fuel t d).st f herr]

/-! ### Concrete fixtures used by the witnesses -/

/-- A small object store: oid 10 is a directory snapshot holding one
file, oid 11 resolves to a non-tree object, everything else is missing. -/
def repoW : Repo := fun o =>
  if o = 10 then .ok (.tree [⟨"b.txt", 1, .blob⟩])
  else if o = 11 then .ok .nonTree
  else .error "missing"

/-- A root snapshot with one subdirectory and one top-level file. -/
def treeW : List Entry := [⟨"a", 10, .tree⟩, ⟨"top.txt", 2, .blob⟩]

/-- A root snapshot with a different version of the top-level file. -/
def treeX : List Entry := [⟨"top.txt", 3, .blob⟩]

/-- A root snapshot whose only entry points at a missing object. -/
def treeBad : List Entry := [⟨"x", 99, .tree⟩]

/-- A cache state whose child `a` has already seen tree oid 10. -/
def dSeen : DirData := DirData.mk [] [] [("a", DirData.mk [10] [] [])]

/-! ### The claims -/

/-- C10: the unsafe fast-path lookup helper (`get_mut_or_create_with`,
which in the source bypasses the map's entry API through a raw pointer to
avoid copying the key when the entry exists) returns the same value and
leaves the map in the same state as the plain
`map.entry(key.to_string()).or_insert_with(f)` operation, for every map,
key and initializer. -/
theorem churn_c10 {α : Type} (map : List (String × α)) (key : String)
    (f : Unit → α) :
    get_mut_or_create_with map key f = entry_or_insert_with map key f := by
  unfold get_mut_or_create_with entry_or_insert_with
  cases h : lookupA map key with
  | some v => rfl
  | none => rfl

/-- C2: `markSeen` (the insert into the child's `hashes`) reports true
exactly on the first registration of an oid at that child; a
directory-kind entry whose oid was already seen is skipped entirely (the
fold result — state, resolution calls and outcome — is literally that of
the remaining entries, so no resolution happens for the subtree); and
when the mark succeeds the child snapshot is fetched (the entry's oid
heads the resolution-call log). -/
theorem churn_c2 (repo : Repo) (fuel : Nat) (d : DirData) (n : String)
    (o : Oid) (es : List Entry) :
    ((setInsert (childOf d n).hashes o).2 = true ↔ o ∉ (childOf d n).hashes) ∧
    (o ∈ (childOf d n).hashes →
      update_for_tree repo (fuel + 1) (⟨n, o, .tree⟩ :: es) d =
        update_for_tree repo (fuel + 1) es d) ∧
    (o ∉ (childOf d n).hashes →
      ∃ tail, (update_for_tree repo (fuel + 1) (⟨n, o, .tree⟩ :: es) d).calls =
        o :: tail) := by
  refine ⟨?_, ?_, ?_⟩
  · by_cases hm : o ∈ (childOf d n).hashes
    · simp [setInsert_mem hm, hm]
    · simp [setInsert_not_mem hm, hm]
  · intro hm
    show foldEntries repo (update_for_tree repo fuel) (⟨n, o, .tree⟩ :: es) d =
      foldEntries repo (update_for_tree repo fuel) es d
    exact foldEntries_tree_mem _ _ _ hm
  · intro hm
    have hre : update_for_tree repo (fuel + 1) (⟨n, o, .tree⟩ :: es) d =
        foldEntries repo (update_for_tree repo fuel) (⟨n, o, .tree⟩ :: es) d := rfl
    rw [hre]
    cases hr : repo o with
    | error g =>
      rw [foldEntries_tree_new_git _ _ _ hm hr]
      exact ⟨[], rfl⟩
    | ok obj =>
      cases obj with
      | nonTree =>
        rw [foldEntries_tree_new_nonTree _ _ _ hm hr]
        exact ⟨[], rfl⟩
      | tree subEs =>
        cases hree : (update_for_tree repo fuel subEs (markChild d n o)).err with
        | some f =>
          rw [foldEntries_tree_new_ok_err _ _ _ hm hr hree]
          exact ⟨_, rfl⟩
        | none =>
          rw [foldEntries_tree_new_ok_none _ _ _ hm hr hree]
          exact ⟨_, rfl⟩

theorem churn_c2_witness :
    (10 ∈ (childOf dSeen "a").hashes) ∧
    update_for_tree repoW 1 [⟨"a", 10, .tree⟩] dSeen =
      update_for_tree repoW 1 [] dSeen :=
  ⟨by decide, (churn_c2 repoW 0 dSeen "a" 10 []).2.1 (by decide)⟩

/-- C6 (amended): when a directory-kind entry's oid is new at its path
and resolves to a non-tree object, the fold ends in the distinguished
`panicked` outcome — the `as_tree().unwrap()` panic — rather than
returning a git error value; no `ObjectCorrupt`-style error is surfaced
to the caller. -/
theorem churn_c6 (repo : Repo) (fuel : Nat) (d : DirData) (n : String)
    (o : Oid) (es : List Entry) (hm : o ∉ (childOf d n).hashes)
    (hr : repo o = .ok .nonTree) :
    update_for_tree repo (fuel + 1) (⟨n, o, .tree⟩ :: es) d =
      ⟨putChild d n (markChild d n o), [o], some .panicked⟩ ∧
    ∀ g : GitErr, (Failure.panicked ≠ Failure.git g) := by
  constructor
  · show foldEntries repo (update_for_tree repo fuel) (⟨n, o, .tree⟩ :: es) d = _
    exact foldEntries_tree_new_nonTree _ _ _ hm hr
  · intro g h
    cases h

theorem churn_c6_witness :
    (11 ∉ (childOf DirData.new "x").hashes) ∧ (repoW 11 = .ok .nonTree) ∧
    update_for_tree repoW 1 [⟨"x", 11, .tree⟩] DirData.new =
      ⟨putChild DirData.new "x" (markChild DirData.new "x" 11), [11],
        some .panicked⟩ :=
  ⟨by decide, rfl, (churn_c6 repoW 0 DirData.new "x" 11 [] (by decide) rfl).1⟩

/-- C6, the claim as stated, refuted: at this concrete input the fold of
a directory-kind entry whose object is a non-tree terminates with the
panic outcome, which is not a surfaced `git` error value of any
description. -/
theorem churn_c6_counterexample :
    (update_for_tree repoW 1 [⟨"x", 11, .tree⟩] DirData.new).err =
      some .panicked ∧
    ∀ g : GitErr,
      (update_for_tree repoW 1 [⟨"x", 11, .tree⟩] DirData.new).err ≠
        some (.git g) := by
  constructor
  · rfl
  · intro g h
    have h2 : some Failure.panicked = some (Failure.git g) := h
    injection h2 with h3
    cases h3

/-- C8: the report handed to the formatter is the row list of
`get_all_files` sorted under the lexicographic row order (same rows, now
sorted); in particular it is sorted by path, and sorting is a function of
the row multiset alone, so any two runs producing the same rows in any
order print identical output. -/
theorem churn_c8 (d : DirData) :
    List.Sorted rowLE (report d) ∧
    (report d).Perm (get_all_files d "") ∧
    List.Sorted (fun a b : String × Nat => a.1 ≤ b.1) (report d) ∧
    (∀ l₁ l₂ : List (String × Nat), l₁.Perm l₂ → sortRows l₁ = sortRows l₂) := by
  refine ⟨sortRows_sorted _, sortRows_perm _, ?_,
    fun l₁ l₂ h => sortRows_eq_of_perm h⟩
  refine List.Pairwise.imp ?_ (sortRows_sorted (get_all_files d ""))
  intro a b hab
  rcases hab with h1 | ⟨h2, _⟩
  · exact le_of_lt h1
  · exact le_of_eq h2

theorem churn_c8_witness :
    (([("b", 2), ("a", 1)] : List (String × Nat)).Perm [("a", 1), ("b", 2)]) ∧
    sortRows [("b", 2), ("a", 1)] = sortRows [("a", 1), ("b", 2)] :=
  ⟨List.Perm.swap _ _ _,
   (churn_c8 DirData.new).2.2.2 _ _ (List.Perm.swap _ _ _)⟩

/-- C9: the fold dispatches on the entry's kind tag.  Entries of a kind
other than tree or blob leave everything unchanged; a blob entry updates
only the `files` table (its `dirs` and `hashes` are untouched); a tree
entry never touches the node's own `files` or `hashes`; and the same name
occurring both as a file and as a directory accumulates into the two
disjoint tables without collision. -/
theorem churn_c9 (repo : Repo) (fuel : Nat) (d : DirData) (n : String)
    (o h : Oid) (e : Entry) (es : List Entry) :
    (e.kind = .other →
      update_for_tree repo (fuel + 1) (e :: es) d =
        update_for_tree repo (fuel + 1) es d) ∧
    ((update_for_tree repo (fuel + 1) [Entry.mk n o .blob] d).st =
        recordFile d n o ∧
      (recordFile d n o).dirs = d.dirs ∧ (recordFile d n o).hashes = d.hashes) ∧
    ((update_for_tree repo (fuel + 1) [Entry.mk n h .tree] d).st.files = d.files ∧
      (update_for_tree repo (fuel + 1) [Entry.mk n h .tree] d).st.hashes =
        d.hashes) ∧
    (o ∈ fileOf
        (update_for_tree repo (fuel + 1) [Entry.mk n o .blob, Entry.mk n h .tree] d).st
        n ∧
      h ∈ (childOf
        (update_for_tree repo (fuel + 1) [Entry.mk n o .blob, Entry.mk n h .tree] d).st
        n).hashes) := by
  have hu : ∀ (xs : List Entry) (c : DirData),
      update_for_tree repo (fuel + 1) xs c =
        foldEntries repo (update_for_tree repo fuel) xs c := fun _ _ => rfl
  refine ⟨?_, ?_, ?_, ?_⟩
  · intro hk
    obtain ⟨n', o', k'⟩ := e
    have hk2 : k' = .other := hk
    subst hk2
    rw [hu, hu]
    exact foldEntries_other _ _ _ _ _ _
  · exact ⟨rfl, rfl, rfl⟩
  · rw [hu]
    by_cases hm : h ∈ (childOf d n).hashes
    · rw [foldEntries_tree_mem _ _ _ hm]
      exact ⟨rfl, rfl⟩
    · cases hr : repo h with
      | error g =>
        rw [foldEntries_tree_new_git _ _ _ hm hr]
        exact ⟨rfl, rfl⟩
      | ok obj =>
        cases obj with
        | nonTree =>
          rw [foldEntries_tree_new_nonTree _ _ _ hm hr]
          exact ⟨rfl, rfl⟩
        | tree subEs =>
          cases hre : (update_for_tree repo fuel subEs (markChild d n h)).err with
          | some f =>
            rw [foldEntries_tree_new_ok_err _ _ _ hm hr hre]
            exact ⟨rfl, rfl⟩
          | none =>
            rw [foldEntries_tree_new_ok_none _ _ _ hm hr hre]
            exact ⟨rfl, rfl⟩
  · rw [hu, foldEntries_blob]
    have hof : o ∈ fileOf (recordFile d n o) n := by
      rw [fileOf_recordFile_self]
      exact (setInsert_fst_mem _ _ _).2 (Or.inr rfl)
    by_cases hm : h ∈ (childOf (recordFile d n o) n).hashes
    · rw [foldEntries_tree_mem _ _ _ hm]
      exact ⟨hof, hm⟩
    · have hputf : ∀ c : DirData,
          fileOf (putChild (recordFile d n o) n c) n = fileOf (recordFile d n o) n := by
        intro c
        rfl
      have hputc : ∀ c : DirData,
          childOf (putChild (recordFile d n o) n c) n = c :=
        fun c => childOf_putChild_self _ _ _
      have hmarkh : h ∈ (markChild (recordFile d n o) n h).hashes := by
        rw [markChild_hashes]
        simp
      cases hr : repo h with
      | error g =>
        rw [foldEntries_tree_new_git _ _ _ hm hr]
        exact ⟨hof, by rw [hputc]; exact hmarkh⟩
      | ok obj =>
        cases obj with
        | nonTree =>
          rw [foldEntries_tree_new_nonTree _ _ _ hm hr]
          exact ⟨hof, by rw [hputc]; exact hmarkh⟩
        | tree subEs =>
          have hsth : (update_for_tree repo fuel subEs
              (markChild (recordFile d n o) n h)).st.hashes =
              (markChild (recordFile d n o) n h).hashes :=
            update_for_tree_st_hashes repo fuel subEs _
          cases hre : (update_for_tree repo fuel subEs
              (markChild (recordFile d n o) n h)).err with
          | some f =>
            rw [foldEntries_tree_new_ok_err _ _ _ hm hr hre]
            exact ⟨hof, by rw [hputc, hsth]; exact hmarkh⟩
          | none =>
            rw [foldEntries_tree_new_ok_none _ _ _ hm hr hre]
            refine ⟨hof, ?_⟩
            show h ∈ (childOf (putChild (recordFile d n o) n
              (update_for_tree repo fuel subEs
                (markChild (recordFile d n o) n h)).st) n).hashes
            rw [hputc, hsth]
            exact hmarkh

theorem churn_c9_witness :
    ((Entry.mk "s" 5 EKind.other).kind = EKind.other) ∧
    update_for_tree repoW 1 [Entry.mk "s" 5 EKind.other] DirData.new =
      update_for_tree repoW 1 [] DirData.new :=
  ⟨rfl, (churn_c9 repoW 0 DirData.new "f" 1 2 (Entry.mk "s" 5 EKind.other) []).1 rfl⟩

/-- C1: after any successful sequence of folded snapshots, the version
count reported for a file (the length of its recorded oid list, which is
what `get_all_files` emits) equals the number of distinct content hashes
recorded there (the list is duplicate-free, so its length is the
cardinality of its set of elements); the recorded set is exactly the set
of hashes ever observed for that name at that path across the folded
snapshots; and recording an already-present hash is a strict no-op on the
cache. -/
theorem churn_c1 (repo : Repo) (fuel : Nat) (ts : List (List Entry))
    (hok : (run_fold repo fuel ts DirData.new).err = none) :
    (∀ q n, (filesAt (run_fold repo fuel ts DirData.new).st q n).length =
      (filesAt (run_fold repo fuel ts DirData.new).st q n).toFinset.card) ∧
    (∀ q n o, o ∈ filesAt (run_fold repo fuel ts DirData.new).st q n ↔
      ∃ t ∈ ts, ReachBlob repo t q n o) ∧
    (∀ d' n o, o ∈ fileOf d' n → recordFile d' n o = d') := by
  have hw := run_fold_wfd repo fuel ts DirData.new WFD_new
  refine ⟨?_, (run_fold_new_char repo fuel ts hok).1,
    fun d' n o h => recordFile_mem_self h⟩
  intro q n
  exact (List.toFinset_card_of_nodup (filesAt_nodup hw q n)).symm

theorem churn_c1_witness :
    ((run_fold repoW 5 [treeW, treeW, treeX] DirData.new).err = none) ∧
    (filesAt (run_fold repoW 5 [treeW, treeW, treeX] DirData.new).st ["a"] "b.txt").length =
      (filesAt (run_fold repoW 5 [treeW, treeW, treeX] DirData.new).st ["a"] "b.txt").toFinset.card :=
  ⟨rfl, (churn_c1 repoW 5 [treeW, treeW, treeX] rfl).1 ["a"] "b.txt"⟩

/-- C3: folding the same finite collection of root snapshots in any
permutation of traversal order (and with any sufficient recursion
budgets) yields an identical flattened, sorted report. -/
theorem churn_c3 (repo : Repo) (fuel fuel' : Nat) (ts ts' : List (List Entry))
    (hperm : ts.Perm ts')
    (h1 : (run_fold repo fuel ts DirData.new).err = none)
    (h2 : (run_fold repo fuel' ts' DirData.new).err = none) :
    report (run_fold repo fuel ts DirData.new).st =
      report (run_fold repo fuel' ts' DirData.new).st := by
  obtain ⟨F1, H1⟩ := run_fold_new_char repo fuel ts h1
  obtain ⟨F2, H2⟩ := run_fold_new_char repo fuel' ts' h2
  have hw1 := run_fold_wfd repo fuel ts DirData.new WFD_new
  have hw2 := run_fold_wfd repo fuel' ts' DirData.new WFD_new
  have hH : ∀ q x, x ∈ hashesAt (run_fold repo fuel ts DirData.new).st q ↔
      x ∈ hashesAt (run_fold repo fuel' ts' DirData.new).st q := by
    intro q x
    rw [H1 q x, H2 q x]
    constructor
    · rintro ⟨t, ht, hr⟩
      exact ⟨t, hperm.mem_iff.mp ht, hr⟩
    · rintro ⟨t, ht, hr⟩
      exact ⟨t, hperm.mem_iff.mpr ht, hr⟩
  have hF : ∀ q n o, o ∈ filesAt (run_fold repo fuel ts DirData.new).st q n ↔
      o ∈ filesAt (run_fold repo fuel' ts' DirData.new).st q n := by
    intro q n o
    rw [F1 q n o, F2 q n o]
    constructor
    · rintro ⟨t, ht, hr⟩
      exact ⟨t, hperm.mem_iff.mp ht, hr⟩
    · rintro ⟨t, ht, hr⟩
      exact ⟨t, hperm.mem_iff.mpr ht, hr⟩
  exact sortRows_eq_of_perm (get_all_files_perm_of_equiv hw1 hw2 hH hF "")

theorem churn_c3_witness :
    (([treeW, treeX] : List (List Entry)).Perm [treeX, treeW]) ∧
    ((run_fold repoW 5 [treeW, treeX] DirData.new).err = none) ∧
    ((run_fold repoW 5 [treeX, treeW] DirData.new).err = none) ∧
    report (run_fold repoW 5 [treeW, treeX] DirData.new).st =
      report (run_fold repoW 5 [treeX, treeW] DirData.new).st :=
  ⟨List.Perm.swap _ _ _, rfl, rfl,
   churn_c3 repoW 5 5 [treeW, treeX] [treeX, treeW] (List.Perm.swap _ _ _) rfl rfl⟩

/-- C4: the root record is folded once per commit with no hash gate of
its own (the commit loop applies `update_for_tree` unconditionally), and
the repetition is result-neutral: appending a second copy of a commit
whose root snapshot was just folded returns exactly the same cache state
and resolution-call log, with no error — so the flattened report is that
of folding the snapshot once. -/
theorem churn_c4 (repo : Repo) (fuel : Nat) (ts : List (List Entry))
    (t : List Entry) (hfuel : 0 < fuel)
    (hsucc : (run_fold repo fuel (ts ++ [t]) DirData.new).err = none) :
    run_fold repo fuel (ts ++ [t, t]) DirData.new =
      ⟨(run_fold repo fuel (ts ++ [t]) DirData.new).st,
       (run_fold repo fuel (ts ++ [t]) DirData.new).calls, none⟩ := by
  -- the prefix must have succeeded
  have hpre : (run_fold repo fuel ts DirData.new).err = none := by
    cases he : (run_fold repo fuel ts DirData.new).err with
    | none => rfl
    | some f =>
      rw [run_fold_append_err repo fuel ts [t] DirData.new f he, he] at hsucc
      cases hsucc
  have hsplit := run_fold_append_ok repo fuel ts [t] DirData.new hpre
  -- the fold of `t` itself must have succeeded
  have hup : (update_for_tree repo fuel t (run_fold repo fuel ts DirData.new).st).err
      = none := by
    cases he : (update_for_tree repo fuel t
        (run_fold repo fuel ts DirData.new).st).err with
    | none => rfl
    | some f =>
      rw [hsplit, run_fold_cons_err [] he] at hsucc
      cases hsucc
  -- after folding `t`, everything `t` mentions is recorded
  have hfolded : Folded repo (run_fold repo fuel ts DirData.new).st none :=
    (run_fold_char repo fuel ts DirData.new (Folded_new repo none) hpre).1
  obtain ⟨A1, B1, _, _⟩ := update_for_tree_folded repo fuel t
    (run_fold repo fuel ts DirData.new).st none hfolded hup
  have hall : ∀ e ∈ t, (e.kind = .tree → e.oid ∈
      (childOf (update_for_tree repo fuel t
        (run_fold repo fuel ts DirData.new).st).st e.name).hashes) ∧
      (e.kind = .blob → e.oid ∈ fileOf (update_for_tree repo fuel t
        (run_fold repo fuel ts DirData.new).st).st e.name) := by
    intro e he
    obtain ⟨n', o', k'⟩ := e
    constructor
    · intro hk
      have hk2 : k' = .tree := hk
      subst hk2
      have := B1 [n'] o' (.here he)
      rwa [hashesAt_cons, hashesAt_nil] at this
    · intro hk
      have hk2 : k' = .blob := hk
      subst hk2
      exact A1 [] n' o' (.here he)
  have hnoop := update_for_tree_noop repo hfuel hall
  -- assemble the two runs
  have hassoc : ts ++ [t, t] = (ts ++ [t]) ++ [t] := by simp
  have hst : (run_fold repo fuel (ts ++ [t]) DirData.new).st =
      (update_for_tree repo fuel t (run_fold repo fuel ts DirData.new).st).st := by
    rw [hsplit, run_fold_cons_ok [] hup]
    rfl
  have hrt : run_fold repo fuel [t]
      (update_for_tree repo fuel t (run_fold repo fuel ts DirData.new).st).st =
      ⟨(update_for_tree repo fuel t (run_fold repo fuel ts DirData.new).st).st,
        [], none⟩ := by
    rw [run_fold_cons_ok [] (by rw [hnoop]), hnoop]
    rfl
  rw [hassoc, run_fold_append_ok repo fuel (ts ++ [t]) [t] DirData.new hsucc,
    hst, hrt]
  simp

theorem churn_c4_witness :
    (0 < 5) ∧
    ((run_fold repoW 5 ([] ++ [treeW]) DirData.new).err = none) ∧
    run_fold repoW 5 ([] ++ [treeW, treeW]) DirData.new =
      ⟨(run_fold repoW 5 ([] ++ [treeW]) DirData.new).st,
       (run_fold repoW 5 ([] ++ [treeW]) DirData.new).calls, none⟩ :=
  ⟨by decide, rfl, churn_c4 repoW 5 [] treeW (by decide) rfl⟩

/-- C5: if resolving an object fails while folding a commit, the commit
loop stops there and returns that same failure at top level, and every
record accumulated by the previously fully-processed commits is still in
the final cache (pointwise set inclusion of all recorded tree oids and
blob oids — nothing is rolled back or removed). -/
theorem churn_c5 (repo : Repo) (fuel : Nat) (ts : List (List Entry))
    (t : List Entry) (f : Failure)
    (hok : (run_fold repo fuel ts DirData.new).err = none)
    (hfail : (update_for_tree repo fuel t
      (run_fold repo fuel ts DirData.new).st).err = some f) :
    run_fold repo fuel (ts ++ [t]) DirData.new =
      ⟨(update_for_tree repo fuel t (run_fold repo fuel ts DirData.new).st).st,
       (run_fold repo fuel ts DirData.new).calls ++
         (update_for_tree repo fuel t
           (run_fold repo fuel ts DirData.new).st).calls,
       some f⟩ ∧
    SubD (run_fold repo fuel ts DirData.new).st
      (update_for_tree repo fuel t (run_fold repo fuel ts DirData.new).st).st := by
  constructor
  · rw [run_fold_append_ok repo fuel ts [t] DirData.new hok,
      run_fold_cons_err [] hfail]
  · exact update_for_tree_mono repo fuel t _

theorem churn_c5_witness :
    ((run_fold repoW 5 [treeW] DirData.new).err = none) ∧
    ((update_for_tree repoW 5 treeBad
      (run_fold repoW 5 [treeW] DirData.new).st).err = some (.git "missing")) ∧
    run_fold repoW 5 ([treeW] ++ [treeBad]) DirData.new =
      ⟨(update_for_tree repoW 5 treeBad
          (run_fold repoW 5 [treeW] DirData.new).st).st,
       (run_fold repoW 5 [treeW] DirData.new).calls ++
         (update_for_tree repoW 5 treeBad
           (run_fold repoW 5 [treeW] DirData.new).st).calls,
       some (.git "missing")⟩ :=
  ⟨rfl, rfl,
   (churn_c5 repoW 5 [treeW] treeBad (.git "missing") rfl rfl).1⟩

/-- C7: flattening emits one row per file and none for directories —
every row comes from a file entry of some node and every file entry
produces a row, the row total being the number of file entries; the
emitted path is the successive `join` of the ancestor directory names and
the file's own name starting from the empty base (so a top-level file's
path is its bare name), and for nonempty names that is exactly the
`/`-separated concatenation of the segments. -/
theorem churn_c7 (d : DirData) (hw : WFD d) :
    (∀ p c, ((p, c) ∈ get_all_files d "" ↔
      ∃ q n node hs, nodeAt d q = some node ∧ lookupA node.files n = some hs ∧
        p = List.foldl join "" (q ++ [n]) ∧ c = hs.length)) ∧
    ((get_all_files d "").length = numFiles d) ∧
    (∀ segs : List String, segs ≠ [] → "" ∉ segs →
      List.foldl join "" segs = String.intercalate "/" segs) := by
  refine ⟨fun p c => get_all_files_mem_iff hw "" p c,
    (get_all_files_length_aux (sizeOf d)).1 d le_rfl "",
    fun segs h0 hne => foldl_join_intercalate segs h0 hne⟩

theorem churn_c7_witness :
    WFD (run_fold repoW 5 [treeW] DirData.new).st ∧
    (get_all_files (run_fold repoW 5 [treeW] DirData.new).st "").length =
      numFiles (run_fold repoW 5 [treeW] DirData.new).st :=
  ⟨run_fold_wfd repoW 5 [treeW] DirData.new WFD_new,
   (churn_c7 (run_fold repoW 5 [treeW] DirData.new).st
     (run_fold_wfd repoW 5 [treeW] DirData.new WFD_new)).2.1⟩

end Churn
